import Mathlib

/-!
# Verification of the Blackjack round engine

A shallow embedding in Lean 4 of the Python sources
`blackjack/cards.py`, `blackjack/hand.py`, `blackjack/players.py`,
`blackjack/strategies.py` and `blackjack/game.py`, together with
theorems checking the natural-language specification against it.

Modelling conventions:
* Python `float` monetary amounts (bankroll, bet, payout) are modelled as
  exact rationals `ℚ`; the program only adds, doubles, halves and compares
  these amounts.
* Python's `random.Random.shuffle` is modelled by an explicit function
  `shuffle : List Card → List Card`; where a fact depends on shuffling
  being a permutation, that is a stated hypothesis.
* A `Strategy` is modelled by its `decide` function.  The `on_round_start`
  and `on_round_end` hooks have no influence on the engine's control flow,
  so the embedding records the engine-to-strategy calls (hook and `decide`
  invocations) as an explicit event trace.
* `raise` in Python is modelled with `Except String`.
-/

namespace Blackjack

/-- `SUITS` from `cards.py`. -/
def SUITS : List String := ["♠", "♥", "♦", "♣"]

/-- `RANKS` from `cards.py`. -/
def RANKS : List String :=
  ["A", "2", "3", "4", "5", "6", "7", "8", "9", "10", "J", "Q", "K"]

/-- `Card` dataclass from `cards.py`. -/
structure Card where
  rank : String
  suit : String
deriving DecidableEq, Repr

/-- Python's `int` on a string of decimal digits, as a fold over the
characters (`int` is only ever applied to the numeric ranks "2".."10",
where this agrees with it). -/
def strToNat (s : String) : ℕ :=
  s.data.foldl (fun n c => 10 * n + (c.toNat - 48)) 0

/-- `Card.values` from `cards.py`: Aces count as 1 or 11, picture cards as
10, other cards as their pip value (`int(self.rank)`). -/
def Card.values (c : Card) : List ℕ :=
  if c.rank = "A" then [1, 11]
  else if c.rank = "J" ∨ c.rank = "Q" ∨ c.rank = "K" then [10]
  else [strToNat c.rank]

/-- `Hand` dataclass from `hand.py`. -/
structure Hand where
  cards : List Card
deriving DecidableEq, Repr

/-- `Hand.add_card` from `hand.py`. -/
def Hand.add_card (h : Hand) (c : Card) : Hand := ⟨h.cards ++ [c]⟩

/-- Insert a number into a strictly sorted list, keeping it strictly
sorted.  `foldr` of this models Python's `sorted(set(...))`. -/
def insertSortedUnique (n : ℕ) : List ℕ → List ℕ
  | [] => [n]
  | m :: ms =>
    if n < m then n :: m :: ms
    else if n = m then m :: ms
    else m :: insertSortedUnique n ms

/-- Python's `sorted(set(l))`: the strictly increasing enumeration of the
elements of `l`. -/
def sortedUnique (l : List ℕ) : List ℕ := l.foldr insertSortedUnique []

/-- One step of the totals loop in `Hand.values`:
`[total + value for total in totals for value in card.values()]`. -/
def totalsStep (totals : List ℕ) (card : Card) : List ℕ :=
  totals.flatMap fun total => card.values.map fun value => total + value

/-- `Hand.values` from `hand.py`: all possible hand totals. -/
def Hand.values (h : Hand) : List ℕ :=
  sortedUnique (h.cards.foldl totalsStep [0])

/-- Python `max` on a non-empty list (the empty case never arises where
this is used). -/
def listMax : List ℕ → ℕ
  | [] => 0
  | x :: xs => xs.foldl max x

/-- Python `min` on a non-empty list (the empty case never arises where
this is used). -/
def listMin : List ℕ → ℕ
  | [] => 0
  | x :: xs => xs.foldl min x

/-- `Hand.best_value` from `hand.py`: the highest total ≤ 21, or the
smallest total if bust. -/
def Hand.best_value (h : Hand) : ℕ :=
  let valid_totals := h.values.filter fun total => total ≤ 21
  if valid_totals.isEmpty then listMin h.values else listMax valid_totals

/-- `Hand.is_blackjack` from `hand.py`. -/
def Hand.is_blackjack (h : Hand) : Bool :=
  h.cards.length = 2 ∧ h.best_value = 21

/-- `Hand.is_bust` from `hand.py`. -/
def Hand.is_bust (h : Hand) : Bool :=
  h.best_value > 21

/-- `Hand.is_soft` from `hand.py`. -/
def Hand.is_soft (h : Hand) : Bool :=
  let totals := h.values
  (totals.any fun total => total ≤ 21) ∧ listMax totals ≠ listMin totals

/-! ## Spec-side characterisation of hand totals (for claim C1)

These definitions follow the specification's words, not the code: the value
choices a card offers (Ace either 1 or 11, face cards 10, numeric ranks
their pip value) and the totals obtained by summing one chosen value per
card. -/

/-- Pip value of a numeric rank, per the spec's "numeric ranks their pip
value". -/
def pipValue : String → ℕ
  | "2" => 2
  | "3" => 3
  | "4" => 4
  | "5" => 5
  | "6" => 6
  | "7" => 7
  | "8" => 8
  | "9" => 9
  | "10" => 10
  | _ => 0

/-- Spec-side card values: an Ace contributes either 1 or 11, face cards
10, numeric ranks their pip value. -/
def specCardValues (c : Card) : List ℕ :=
  if c.rank = "A" then [1, 11]
  else if c.rank = "J" ∨ c.rank = "Q" ∨ c.rank = "K" then [10]
  else [pipValue c.rank]

/-- Spec-side totals relation: `SpecTotal cs t` holds when `t` is obtained
by summing exactly one spec-side value per card of `cs`. -/
inductive SpecTotal : List Card → ℕ → Prop where
  | nil : SpecTotal [] 0
  | cons {c : Card} {cs : List Card} {v t : ℕ} :
      v ∈ specCardValues c → SpecTotal cs t → SpecTotal (c :: cs) (v + t)

/-! ### Lemmas about the sorted-unique helper -/

theorem mem_insertSortedUnique {x n : ℕ} :
    ∀ {l : List ℕ}, x ∈ insertSortedUnique n l ↔ x = n ∨ x ∈ l
  | [] => by simp [insertSortedUnique]
  | m :: ms => by
    by_cases h1 : n < m
    · simp [insertSortedUnique, h1]
    · by_cases h2 : n = m
      · subst h2
        simp only [insertSortedUnique, h1, if_false, if_pos rfl]
        constructor
        · intro hx; exact Or.inr hx
        · rintro (rfl | hx)
          · exact List.mem_cons_self _ _
          · exact hx
      · simp only [insertSortedUnique, h1, h2, if_false, List.mem_cons,
          mem_insertSortedUnique (l := ms)]
        tauto

theorem mem_sortedUnique {x : ℕ} :
    ∀ {l : List ℕ}, x ∈ sortedUnique l ↔ x ∈ l
  | [] => by simp [sortedUnique]
  | n :: ns => by
    simp only [sortedUnique, List.foldr_cons, mem_insertSortedUnique,
      List.mem_cons]
    have := mem_sortedUnique (x := x) (l := ns)
    simp only [sortedUnique] at this
    rw [this]

theorem insertSortedUnique_pairwise {n : ℕ} :
    ∀ {l : List ℕ}, l.Pairwise (· < ·) → (insertSortedUnique n l).Pairwise (· < ·)
  | [], _ => by simp [insertSortedUnique]
  | m :: ms, hp => by
    rw [List.pairwise_cons] at hp
    obtain ⟨hm, hms⟩ := hp
    by_cases h1 : n < m
    · have hall : ∀ x ∈ m :: ms, n < x := by
        intro x hx
        rcases List.mem_cons.1 hx with rfl | hx
        · exact h1
        · exact lt_trans h1 (hm x hx)
      simp only [insertSortedUnique, h1, if_true]
      exact List.pairwise_cons.2 ⟨hall, List.pairwise_cons.2 ⟨hm, hms⟩⟩
    · by_cases h2 : n = m
      · subst h2
        simp only [insertSortedUnique, if_neg h1, if_pos rfl]
        exact List.pairwise_cons.2 ⟨hm, hms⟩
      · have hmn : m < n := by omega
        simp only [insertSortedUnique, h1, h2, if_false]
        refine List.pairwise_cons.2 ⟨?_, insertSortedUnique_pairwise hms⟩
        intro x hx
        rcases mem_insertSortedUnique.1 hx with rfl | hx
        · exact hmn
        · exact hm x hx

theorem sortedUnique_pairwise : ∀ (l : List ℕ), (sortedUnique l).Pairwise (· < ·)
  | [] => by simp [sortedUnique]
  | n :: ns => insertSortedUnique_pairwise (sortedUnique_pairwise ns)

theorem sortedUnique_nodup (l : List ℕ) : (sortedUnique l).Nodup :=
  (sortedUnique_pairwise l).imp fun h => Nat.ne_of_lt h

/-! ### Lemmas about `listMax` and `listMin` -/

theorem foldl_max_spec : ∀ (xs : List ℕ) (a : ℕ),
    xs.foldl max a ∈ a :: xs ∧ a ≤ xs.foldl max a ∧ ∀ x ∈ xs, x ≤ xs.foldl max a
  | [], a => by simp
  | y :: ys, a => by
    obtain ⟨hmem, hle, hub⟩ := foldl_max_spec ys (max a y)
    simp only [List.foldl_cons]
    refine ⟨?_, ?_, ?_⟩
    · rcases List.mem_cons.1 hmem with h | h
      · rcases max_choice a y with hc | hc
        · exact List.mem_cons.2 (Or.inl (h.trans hc))
        · exact List.mem_cons.2 (Or.inr (List.mem_cons.2 (Or.inl (h.trans hc))))
      · exact List.mem_cons.2 (Or.inr (List.mem_cons.2 (Or.inr h)))
    · exact le_trans (le_max_left a y) hle
    · intro x hx
      rcases List.mem_cons.1 hx with rfl | hx
      · exact le_trans (le_max_right a x) hle
      · exact hub x hx

theorem foldl_min_spec : ∀ (xs : List ℕ) (a : ℕ),
    xs.foldl min a ∈ a :: xs ∧ xs.foldl min a ≤ a ∧ ∀ x ∈ xs, xs.foldl min a ≤ x
  | [], a => by simp
  | y :: ys, a => by
    obtain ⟨hmem, hle, hlb⟩ := foldl_min_spec ys (min a y)
    simp only [List.foldl_cons]
    refine ⟨?_, ?_, ?_⟩
    · rcases List.mem_cons.1 hmem with h | h
      · rcases min_choice a y with hc | hc
        · exact List.mem_cons.2 (Or.inl (h.trans hc))
        · exact List.mem_cons.2 (Or.inr (List.mem_cons.2 (Or.inl (h.trans hc))))
      · exact List.mem_cons.2 (Or.inr (List.mem_cons.2 (Or.inr h)))
    · exact le_trans hle (min_le_left a y)
    · intro x hx
      rcases List.mem_cons.1 hx with rfl | hx
      · exact le_trans hle (min_le_right a x)
      · exact hlb x hx

theorem listMax_mem : ∀ {l : List ℕ}, l ≠ [] → listMax l ∈ l
  | [], h => absurd rfl h
  | x :: xs, _ => (foldl_max_spec xs x).1

theorem le_listMax : ∀ {l : List ℕ}, ∀ x ∈ l, x ≤ listMax l
  | [], x, hx => absurd hx (List.not_mem_nil x)
  | a :: as, x, hx => by
    rcases List.mem_cons.1 hx with rfl | hx
    · exact (foldl_max_spec as x).2.1
    · exact (foldl_max_spec as a).2.2 x hx

theorem listMin_mem : ∀ {l : List ℕ}, l ≠ [] → listMin l ∈ l
  | [], h => absurd rfl h
  | x :: xs, _ => (foldl_min_spec xs x).1

theorem listMin_le : ∀ {l : List ℕ}, ∀ x ∈ l, listMin l ≤ x
  | [], x, hx => absurd hx (List.not_mem_nil x)
  | a :: as, x, hx => by
    rcases List.mem_cons.1 hx with rfl | hx
    · exact (foldl_min_spec as x).2.1
    · exact (foldl_min_spec as a).2.2 x hx

/-! ### The totals fold computes exactly the spec-side totals -/

theorem values_eq_specCardValues {c : Card} (h : c.rank ∈ RANKS) :
    c.values = specCardValues c := by
  obtain ⟨r, s⟩ := c
  simp only [RANKS, List.mem_cons, List.not_mem_nil, or_false] at h
  rcases h with rfl | rfl | rfl | rfl | rfl | rfl | rfl | rfl | rfl | rfl |
    rfl | rfl | rfl <;> rfl

theorem specCardValues_ne_nil (c : Card) : specCardValues c ≠ [] := by
  unfold specCardValues
  split
  · simp
  · split <;> simp

theorem specTotal_exists :
    ∀ (cs : List Card), ∃ t, SpecTotal cs t
  | [] => ⟨0, SpecTotal.nil⟩
  | c :: cs => by
    obtain ⟨t, ht⟩ := specTotal_exists cs
    rcases hv : specCardValues c with _ | ⟨v, vs⟩
    · exact absurd hv (specCardValues_ne_nil c)
    · exact ⟨v + t, SpecTotal.cons (by rw [hv]; exact List.mem_cons_self v vs) ht⟩

theorem mem_totalsFold {t : ℕ} :
    ∀ {cs : List Card}, (∀ c ∈ cs, c.rank ∈ RANKS) → ∀ {acc : List ℕ},
      (t ∈ cs.foldl totalsStep acc ↔ ∃ a ∈ acc, ∃ s, SpecTotal cs s ∧ t = a + s)
  | [], _, acc => by
    constructor
    · intro ht
      exact ⟨t, ht, 0, SpecTotal.nil, (Nat.add_zero t).symm⟩
    · rintro ⟨a, ha, s, hs, rfl⟩
      cases hs
      simpa using ha
  | c :: cs, hranks, acc => by
    have hc : c.rank ∈ RANKS := hranks c (List.mem_cons_self c cs)
    have hcs : ∀ c' ∈ cs, c'.rank ∈ RANKS := fun c' h =>
      hranks c' (List.mem_cons_of_mem c h)
    rw [List.foldl_cons, mem_totalsFold hcs]
    constructor
    · rintro ⟨a', ha', s, hs, rfl⟩
      simp only [totalsStep, List.mem_flatMap, List.mem_map] at ha'
      obtain ⟨a, ha, v, hv, rfl⟩ := ha'
      rw [values_eq_specCardValues hc] at hv
      exact ⟨a, ha, v + s, SpecTotal.cons hv hs, by omega⟩
    · rintro ⟨a, ha, s, hs, rfl⟩
      cases hs with
      | cons hv hs' =>
        rename_i v s'
        refine ⟨a + v, ?_, s', hs', by omega⟩
        simp only [totalsStep, List.mem_flatMap, List.mem_map]
        exact ⟨a, ha, v, by rw [values_eq_specCardValues hc]; exact hv, rfl⟩

theorem mem_hand_values {h : Hand} (hranks : ∀ c ∈ h.cards, c.rank ∈ RANKS)
    {t : ℕ} : t ∈ h.values ↔ SpecTotal h.cards t := by
  rw [Hand.values, mem_sortedUnique, mem_totalsFold hranks]
  constructor
  · rintro ⟨a, ha, s, hs, rfl⟩
    simp only [List.mem_singleton] at ha
    subst ha
    simpa using hs
  · intro ht
    exact ⟨0, List.mem_singleton_self 0, t, ht, (Nat.zero_add t).symm⟩

theorem hand_values_ne_nil (h : Hand) (hranks : ∀ c ∈ h.cards, c.rank ∈ RANKS) :
    h.values ≠ [] := by
  obtain ⟨t, ht⟩ := specTotal_exists h.cards
  intro hnil
  have := (mem_hand_values hranks (t := t)).2 ht
  rw [hnil] at this
  exact List.not_mem_nil t this

/-- **C1.** `Hand.values` returns exactly the deduplicated set of totals
obtained by summing one value per card (Ace 1 or 11, face cards 10, numeric
ranks their pip value); `Hand.best_value` is the greatest total ≤ 21 when
one exists and the least total otherwise; the empty hand has totals
exactly `[0]`. -/
theorem hand_values_best_value_spec (h : Hand)
    (hranks : ∀ c ∈ h.cards, c.rank ∈ RANKS) :
    (∀ t, t ∈ h.values ↔ SpecTotal h.cards t) ∧
    h.values.Nodup ∧
    ((∃ t, SpecTotal h.cards t ∧ t ≤ 21) →
      IsGreatest {t | SpecTotal h.cards t ∧ t ≤ 21} h.best_value) ∧
    ((∀ t, SpecTotal h.cards t → 21 < t) →
      IsLeast {t | SpecTotal h.cards t} h.best_value) ∧
    (h.cards = [] → h.values = [0]) := by
  refine ⟨fun t => mem_hand_values hranks, sortedUnique_nodup _, ?_, ?_, ?_⟩
  · rintro ⟨t, ht, ht21⟩
    have htv : t ∈ h.values := (mem_hand_values hranks).2 ht
    have hmem : t ∈ h.values.filter fun total => total ≤ 21 := by
      rw [List.mem_filter]
      exact ⟨htv, by simpa using ht21⟩
    have hne : ¬ (h.values.filter fun total => total ≤ 21).isEmpty := by
      rw [List.isEmpty_iff]
      intro hnil
      rw [hnil] at hmem
      exact List.not_mem_nil t hmem
    rw [Hand.best_value]
    simp only [hne, if_false]
    constructor
    · have hmax := listMax_mem (l := h.values.filter fun total => total ≤ 21)
        (by intro hnil; rw [hnil] at hmem; exact List.not_mem_nil t hmem)
      rw [List.mem_filter] at hmax
      exact ⟨(mem_hand_values hranks).1 hmax.1, by simpa using hmax.2⟩
    · rintro s ⟨hs, hs21⟩
      refine le_listMax s ?_
      rw [List.mem_filter]
      exact ⟨(mem_hand_values hranks).2 hs, by simpa using hs21⟩
  · intro hbust
    have hempty : (h.values.filter fun total => total ≤ 21).isEmpty := by
      rw [List.isEmpty_iff, List.filter_eq_nil_iff]
      intro t htv
      have := hbust t ((mem_hand_values hranks).1 htv)
      simpa using Nat.not_le.2 this
    rw [Hand.best_value]
    simp only [hempty, if_true]
    constructor
    · exact (mem_hand_values hranks).1 (listMin_mem (hand_values_ne_nil h hranks))
    · intro s hs
      exact listMin_le s ((mem_hand_values hranks).2 hs)
  · intro hnil
    rw [Hand.values, hnil]
    rfl

/-- Witness for C1 at the concrete hand A♠ K♥: the totals are {11, 21} and
the best value 21 is the greatest total ≤ 21. -/
theorem hand_values_best_value_spec_witness :
    (∀ t, t ∈ (Hand.mk [⟨"A", "♠"⟩, ⟨"K", "♥"⟩]).values ↔
      SpecTotal [⟨"A", "♠"⟩, ⟨"K", "♥"⟩] t) ∧
    (Hand.mk [⟨"A", "♠"⟩, ⟨"K", "♥"⟩]).values.Nodup ∧
    IsGreatest {t | SpecTotal [⟨"A", "♠"⟩, ⟨"K", "♥"⟩] t ∧ t ≤ 21}
      (Hand.mk [⟨"A", "♠"⟩, ⟨"K", "♥"⟩]).best_value := by
  have hranks : ∀ c ∈ (Hand.mk [⟨"A", "♠"⟩, ⟨"K", "♥"⟩]).cards,
      c.rank ∈ RANKS := by decide
  obtain ⟨h1, h2, h3, _, _⟩ :=
    hand_values_best_value_spec (Hand.mk [⟨"A", "♠"⟩, ⟨"K", "♥"⟩]) hranks
  refine ⟨h1, h2, h3 ⟨21, ?_, by omega⟩⟩
  have : (11 : ℕ) + 10 = 21 := by omega
  rw [← this]
  exact SpecTotal.cons (by decide) (by
    have : (10 : ℕ) + 0 = 10 := by omega
    rw [← this]
    exact SpecTotal.cons (by decide) SpecTotal.nil)

/-! ## The shoe (`cards.py`) -/

/-- The fresh cards built by `Shoe._reshuffle` before shuffling:
`[Card(rank, suit) for _ in range(decks) for suit in SUITS for rank in RANKS]`. -/
def freshCards (decks : ℕ) : List Card :=
  (List.range decks).flatMap fun _ =>
    SUITS.flatMap fun suit => RANKS.map fun rank => Card.mk rank suit

/-- `Shoe` from `cards.py`.  The `rng` is modelled by the explicit
`shuffle` argument passed to the operations that shuffle. -/
structure Shoe where
  decks : ℕ
  cards : List Card
deriving DecidableEq, Repr

/-- `Shoe._reshuffle`: refill with `decks` fresh decks, then shuffle. -/
def Shoe.reshuffle (shuffle : List Card → List Card) (s : Shoe) : Shoe :=
  { s with cards := shuffle (freshCards s.decks) }

/-- `Shoe.__init__`: rejects `decks < 1`, then refills. -/
def Shoe.init (decks : ℕ) (shuffle : List Card → List Card) :
    Except String Shoe :=
  if decks < 1 then .error "A shoe must contain at least one deck"
  else .ok (Shoe.reshuffle shuffle ⟨decks, []⟩)

/-- `Shoe.draw`: reshuffle when empty, then `pop()` the last card.
`none` models the `IndexError` of popping an empty list (reachable only
when the refill itself yields no cards). -/
def Shoe.draw (shuffle : List Card → List Card) (s : Shoe) :
    Option Card × Shoe :=
  let s' := if s.cards.isEmpty then Shoe.reshuffle shuffle s else s
  (s'.cards.getLast?, { s' with cards := s'.cards.dropLast })

/-- `Shoe.cards_remaining`. -/
def Shoe.cards_remaining (s : Shoe) : ℕ := s.cards.length

/-- Dealing `k` cards in sequence from a shoe. -/
def Shoe.drawK (shuffle : List Card → List Card) : ℕ → Shoe → Shoe
  | 0, s => s
  | k + 1, s => Shoe.drawK shuffle k (Shoe.draw shuffle s).2

/-! ## Players and strategies (`players.py`, `strategies.py`) -/

/-- `RoundSnapshot` from `strategies.py`. -/
structure RoundSnapshot where
  round_number : ℕ
  hand : Hand
  dealer_upcard : Card
  allowed_actions : List String
  cards_remaining : ℕ
  player_bankroll : ℚ
  bet_amount : ℚ
deriving DecidableEq, Repr

/-- A `Strategy` is modelled by its name and its mandatory `decide`
function; the optional hooks never influence the engine's control flow. -/
structure Strategy where
  name : String
  decide : RoundSnapshot → String

/-- `DealerStrategy` from `strategies.py`: hit below 17, else stand. -/
def DealerStrategy : Strategy :=
  ⟨"Dealer Rules", fun snapshot =>
    if snapshot.hand.best_value < 17 then "hit" else "stand"⟩

/-- `SimpleStrategy` from `strategies.py`: hit below 16, else stand. -/
def SimpleStrategy : Strategy :=
  ⟨"Simple Hit 16", fun snapshot =>
    if snapshot.hand.best_value < 16 then "hit" else "stand"⟩

/-- `PlayerConfig` from `players.py` (monetary amounts as exact
rationals). -/
structure PlayerConfig where
  name : String
  strategy : Strategy
  bankroll : ℚ
  bet_amount : ℚ

/-- The validation performed by `PlayerConfig.__post_init__` (which raises
`ValueError` on non-positive amounts). -/
def PlayerConfig.valid (p : PlayerConfig) : Prop :=
  0 < p.bet_amount ∧ 0 < p.bankroll

/-- `PlayerConfig.can_place_bet`. -/
def PlayerConfig.can_place_bet (p : PlayerConfig) : Bool :=
  p.bankroll ≥ p.bet_amount

/-- `PlayerConfig.adjust_bankroll`. -/
def PlayerConfig.adjust_bankroll (p : PlayerConfig) (amount : ℚ) :
    PlayerConfig :=
  { p with bankroll := p.bankroll + amount }

/-! ## The round engine (`game.py`) -/

/-- `GameResult` from `game.py`. -/
structure GameResult where
  player_name : String
  outcome : String
  payout : ℚ
  player_total : ℕ
  dealer_total : ℕ
  is_blackjack : Bool
deriving DecidableEq, Repr

/-- `_RoundPlayerState` from `game.py`. -/
structure RoundPlayerState where
  config : PlayerConfig
  hand : Hand
  bet : ℚ

/-- The engine-to-strategy calls of one round for one player, recorded as
an explicit trace: the `on_round_start` hook, each `decide` query (with
the returned decision), and the `on_round_end` hook. -/
inductive StrategyEvent where
  | roundStart (snapshot : RoundSnapshot)
  | decideCall (snapshot : RoundSnapshot) (decision : String)
  | roundEnd (snapshot : RoundSnapshot) (outcome : String) (payout : ℚ)
deriving DecidableEq, Repr

/-- Ordered association list with Python `dict` insertion semantics
(updating an existing key keeps its position), modelling `player_states`. -/
def dictInsert (k : String) (v : α) :
    List (String × α) → List (String × α)
  | [] => [(k, v)]
  | (k', v') :: rest =>
    if k' = k then (k', v) :: rest else (k', v') :: dictInsert k v rest

/-- Lookup in the ordered association list (`player_states[name]`). -/
def dictGet? (k : String) : List (String × α) → Option α
  | [] => none
  | (k', v') :: rest => if k' = k then some v' else dictGet? k rest

/-- The legal actions computed at the top of the player-turn loop
(`game.py` lines 117–119): always hit and stand, plus double exactly when
the hand has two cards and the bankroll covers twice the bet. -/
def turnAllowedActions (hand : Hand) (bankroll bet : ℚ) : List String :=
  ["hit", "stand"] ++
    (if hand.cards.length = 2 ∧ bankroll ≥ bet * 2 then ["double"] else [])

/-- The snapshot built at each decision point (`game.py` lines 120–128). -/
def mkTurnSnapshot (round_number : ℕ) (hand : Hand) (upcard : Card)
    (allowed : List String) (shoe : Shoe) (bankroll bet : ℚ) :
    RoundSnapshot :=
  ⟨round_number, hand, upcard, allowed, shoe.cards_remaining, bankroll, bet⟩

/-- Result of one player's decision loop. -/
structure TurnResult where
  hand : Hand
  bet : ℚ
  shoe : Shoe
  decideSnapshots : List RoundSnapshot
deriving DecidableEq, Repr

/-- The `while not finished` decision loop of `play_round` (`game.py`
lines 116–154), with explicit fuel (the loop always terminates: each hit
grows the hand).  Records the snapshot of every `decide` query. -/
def playerTurnLoop (shuffle : List Card → List Card) (strategy : Strategy)
    (round_number : ℕ) (upcard : Card) (bankroll : ℚ) :
    ℕ → Hand → ℚ → Shoe → List RoundSnapshot → Except String TurnResult
  | 0, _, _, _, _ => .error "out of fuel"
  | fuel + 1, hand, bet, shoe, acc =>
    let allowed := turnAllowedActions hand bankroll bet
    let snapshot := mkTurnSnapshot round_number hand upcard allowed shoe bankroll bet
    let decision := strategy.decide snapshot
    if decision ∉ allowed then
      .error ("Strategy " ++ strategy.name ++ " returned invalid action " ++ decision)
    else if decision = "hit" then
      match Shoe.draw shuffle shoe with
      | (none, _) => .error "pop from empty list"
      | (some card, shoe') =>
        let hand' := hand.add_card card
        if hand'.is_bust ∨ hand'.is_blackjack then
          .ok ⟨hand', bet, shoe', acc ++ [snapshot]⟩
        else
          playerTurnLoop shuffle strategy round_number upcard bankroll
            fuel hand' bet shoe' (acc ++ [snapshot])
    else if decision = "double" then
      match Shoe.draw shuffle shoe with
      | (none, _) => .error "pop from empty list"
      | (some card, shoe') =>
        .ok ⟨hand.add_card card, bet * 2, shoe', acc ++ [snapshot]⟩
    else
      .ok ⟨hand, bet, shoe, acc ++ [snapshot]⟩

/-- Result of one player's whole turn. -/
structure PlayerTurnOutcome where
  state : RoundPlayerState
  shoe : Shoe
  events : List StrategyEvent

/-- One player's turn (`game.py` lines 90–155): the `on_round_start`
snapshot (allowed actions `("hit", "stand")`), the natural-blackjack
short-circuit, then the decision loop. -/
def playerTurn (shuffle : List Card → List Card) (fuel round_number : ℕ)
    (upcard : Card) (player : PlayerConfig) (state : RoundPlayerState)
    (shoe : Shoe) : Except String PlayerTurnOutcome :=
  let startSnapshot : RoundSnapshot :=
    ⟨round_number, state.hand, upcard, ["hit", "stand"],
      shoe.cards_remaining, player.bankroll, state.bet⟩
  if state.hand.is_blackjack then
    .ok ⟨{ state with bet := state.bet }, shoe, [.roundStart startSnapshot]⟩
  else
    match playerTurnLoop shuffle player.strategy round_number upcard
        player.bankroll fuel state.hand state.bet shoe [] with
    | .error e => .error e
    | .ok r =>
      .ok ⟨{ state with hand := r.hand, bet := r.bet }, r.shoe,
        .roundStart startSnapshot ::
          r.decideSnapshots.map fun s => .decideCall s (player.strategy.decide s)⟩

/-- The player-turns phase (`game.py` lines 90–155): each active player in
order takes a turn on the shared shoe, with its state looked up and
written back in `player_states`.  Returns one `(name, events)` trace per
active player. -/
def playerTurnsPhase (shuffle : List Card → List Card)
    (fuel round_number : ℕ) (upcard : Card) :
    List PlayerConfig → List (String × RoundPlayerState) → Shoe →
    Except String (List (String × RoundPlayerState) × Shoe ×
      List (String × List StrategyEvent))
  | [], states, shoe => .ok (states, shoe, [])
  | player :: rest, states, shoe =>
    match dictGet? player.name states with
    | none => .error "KeyError"
    | some state =>
      match playerTurn shuffle fuel round_number upcard player state shoe with
      | .error e => .error e
      | .ok out =>
        match playerTurnsPhase shuffle fuel round_number upcard rest
            (dictInsert player.name out.state states) out.shoe with
        | .error e => .error e
        | .ok (states', shoe', traces) =>
          .ok (states', shoe', (player.name, out.events) :: traces)

/-- `BlackjackGame._dealer_should_hit`. -/
def dealer_should_hit (dealer_hits_soft_17 : Bool) (hand : Hand) : Bool :=
  let best := hand.best_value
  if best < 17 then true
  else if best = 17 ∧ hand.is_soft ∧ dealer_hits_soft_17 then true
  else false

/-- The dealer's drawing loop (`game.py` lines 160–165). -/
def dealerTurn (shuffle : List Card → List Card) (dealer_hits_soft_17 : Bool) :
    ℕ → Hand → Shoe → Except String (Hand × Shoe)
  | 0, _, _ => .error "out of fuel"
  | fuel + 1, hand, shoe =>
    if dealer_should_hit dealer_hits_soft_17 hand then
      match Shoe.draw shuffle shoe with
      | (none, _) => .error "pop from empty list"
      | (some card, shoe') =>
        dealerTurn shuffle dealer_hits_soft_17 fuel (hand.add_card card) shoe'
    else .ok (hand, shoe)

/-- The outcome/payout decision table of `play_round`
(`game.py` lines 177–199). -/
def resolveOutcome (hand dealer_hand : Hand) (bet : ℚ) : String × ℚ :=
  let dealer_total := dealer_hand.best_value
  let dealer_bust : Bool := dealer_total > 21
  let player_total := hand.best_value
  if hand.is_bust then ("lose", -bet)
  else if hand.is_blackjack ∧ ¬ dealer_hand.is_blackjack then
    ("blackjack", bet * (3 / 2))
  else if dealer_bust then ("win", bet)
  else if dealer_hand.is_blackjack ∧ ¬ hand.is_blackjack then ("lose", -bet)
  else if player_total > dealer_total then ("win", bet)
  else if player_total < dealer_total then ("lose", -bet)
  else ("push", 0)

/-- What the resolution loop produces for one active player: the updated
config (bankroll adjusted by the payout), the `GameResult`, and the
`on_round_end` call. -/
structure PlayerResolution where
  config : PlayerConfig
  result : GameResult
  trace : String × List StrategyEvent

/-- The bet-resolution phase of `play_round` (`game.py` lines 169–221):
for each active player, compare hands, adjust the bankroll by the payout,
then notify the strategy via `on_round_end` (whose snapshot carries the
already-updated bankroll). -/
def resolvePhase (round_number : ℕ) (upcard : Card) (dealer_hand : Hand)
    (shoe : Shoe) :
    List PlayerConfig → List (String × RoundPlayerState) →
    Except String (List PlayerResolution)
  | [], _ => .ok []
  | player :: rest, states =>
    match dictGet? player.name states with
    | none => .error "KeyError"
    | some state =>
      let (outcome, payout) := resolveOutcome state.hand dealer_hand state.bet
      let player' := player.adjust_bankroll payout
      let result : GameResult :=
        ⟨player.name, outcome, payout, state.hand.best_value,
          dealer_hand.best_value, state.hand.is_blackjack⟩
      let outcome_snapshot : RoundSnapshot :=
        ⟨round_number, state.hand, upcard, [], shoe.cards_remaining,
          player'.bankroll, state.bet⟩
      match resolvePhase round_number upcard dealer_hand shoe rest states with
      | .error e => .error e
      | .ok rs =>
        .ok (⟨player', result,
          (player.name, [.roundEnd outcome_snapshot outcome payout])⟩ :: rs)

/-- The skip result for a player who cannot afford the bet
(`game.py` lines 64–74). -/
def skipResult (p : PlayerConfig) : GameResult :=
  ⟨p.name, "skip", 0, 0, 0, false⟩

/-- Building `player_states` (`game.py` lines 79–80). -/
def buildStates :
    List PlayerConfig → List (String × RoundPlayerState) →
    List (String × RoundPlayerState)
  | [], d => d
  | p :: rest, d =>
    buildStates rest (dictInsert p.name ⟨p, ⟨[]⟩, p.bet_amount⟩ d)

/-- One card to each seated player in `player_states` order (the inner
loop of the deal, `game.py` lines 83–84). -/
def dealToStates (shuffle : List Card → List Card) :
    List (String × RoundPlayerState) → Shoe →
    Except String (List (String × RoundPlayerState) × Shoe)
  | [], shoe => .ok ([], shoe)
  | (k, st) :: rest, shoe =>
    match Shoe.draw shuffle shoe with
    | (none, _) => .error "pop from empty list"
    | (some card, shoe') =>
      match dealToStates shuffle rest shoe' with
      | .error e => .error e
      | .ok (rest', shoe'') =>
        .ok ((k, { st with hand := st.hand.add_card card }) :: rest', shoe'')

/-- One pass of the initial deal (`game.py` lines 82–85): one card to each
seated player, then one to the dealer. -/
def dealPass (shuffle : List Card → List Card)
    (states : List (String × RoundPlayerState)) (dealer_hand : Hand)
    (shoe : Shoe) :
    Except String (List (String × RoundPlayerState) × Hand × Shoe) :=
  match dealToStates shuffle states shoe with
  | .error e => .error e
  | .ok (states', shoe') =>
    match Shoe.draw shuffle shoe' with
    | (none, _) => .error "pop from empty list"
    | (some card, shoe'') => .ok (states', dealer_hand.add_card card, shoe'')

/-- Write the resolved active players' configs back over
`self.players` (Python mutates the shared `PlayerConfig` objects; the
active players are exactly the `can_place_bet` filter, in order). -/
def mergePlayers :
    List PlayerConfig → List PlayerConfig → List PlayerConfig
  | [], _ => []
  | p :: rest, updated =>
    if p.can_place_bet then
      match updated with
      | [] => p :: mergePlayers rest []
      | u :: us => u :: mergePlayers rest us
    else p :: mergePlayers rest updated

/-- Combine, per active player, the turn-phase trace with the
resolution-phase trace. -/
def mergeTraces :
    List (String × List StrategyEvent) → List (String × List StrategyEvent) →
    List (String × List StrategyEvent)
  | [], ts => ts
  | (n, es) :: rest, [] => (n, es) :: mergeTraces rest []
  | (n, es) :: rest, (_, es') :: rest' =>
    (n, es ++ es') :: mergeTraces rest rest'

/-- `BlackjackGame` from `game.py`. -/
structure BlackjackGame where
  players : List PlayerConfig
  dealer_hits_soft_17 : Bool
  shoe : Shoe
  round_number : ℕ

/-- `BlackjackGame.__init__(players, decks=6, dealer_hits_soft_17=False)`.
The Python constructor builds `Shoe(decks)` with a fresh, non-injectable
`random.Random()`; that ambient randomness is modelled by the explicit
`envShuffle` argument, which does NOT correspond to any Python
constructor parameter. -/
def mkBlackjackGame (players : List PlayerConfig) (decks : ℕ)
    (dealer_hits_soft_17 : Bool) (envShuffle : List Card → List Card) :
    Except String BlackjackGame :=
  match Shoe.init decks envShuffle with
  | .error e => .error e
  | .ok shoe => .ok ⟨players, dealer_hits_soft_17, shoe, 0⟩

/-- Everything `play_round` produces: the updated game state, the round's
results, and the per-active-player strategy-call traces. -/
structure RoundOutput where
  game : BlackjackGame
  results : List GameResult
  traces : List (String × List StrategyEvent)

/-- `BlackjackGame.play_round` (`game.py` lines 51–232): filter affordable
players, deal two cards round-robin, run player turns, dealer turn, then
resolve bets. -/
def play_round (shuffle : List Card → List Card) (fuel : ℕ)
    (g : BlackjackGame) : Except String RoundOutput :=
  let round_number := g.round_number + 1
  let active := g.players.filter PlayerConfig.can_place_bet
  let skips := (g.players.filter fun p => ¬ p.can_place_bet).map skipResult
  if active.isEmpty then
    .ok ⟨{ g with round_number := round_number }, skips, []⟩
  else
    match dealPass shuffle (buildStates active []) ⟨[]⟩ g.shoe with
    | .error e => .error e
    | .ok (states1, dealer_hand1, shoe1) =>
      match dealPass shuffle states1 dealer_hand1 shoe1 with
      | .error e => .error e
      | .ok (states2, dealer_hand2, shoe2) =>
        match dealer_hand2.cards.head? with
        | none => .error "IndexError"
        | some dealer_upcard =>
          match playerTurnsPhase shuffle fuel round_number dealer_upcard
              active states2 shoe2 with
          | .error e => .error e
          | .ok (states3, shoe3, turnTraces) =>
            match dealerTurn shuffle g.dealer_hits_soft_17 fuel
                dealer_hand2 shoe3 with
            | .error e => .error e
            | .ok (dealer_hand3, shoe4) =>
              match resolvePhase round_number dealer_upcard dealer_hand3
                  shoe4 active states3 with
              | .error e => .error e
              | .ok rs =>
                .ok ⟨⟨mergePlayers g.players (rs.map PlayerResolution.config),
                      g.dealer_hits_soft_17, shoe4, round_number⟩,
                  skips ++ rs.map PlayerResolution.result,
                  mergeTraces turnTraces (rs.map PlayerResolution.trace)⟩

/-! ## Shoe facts (claim C8) -/

theorem freshCards_length : ∀ decks : ℕ, (freshCards decks).length = 52 * decks
  | 0 => rfl
  | d + 1 => by
    have hsplit : freshCards (d + 1) =
        freshCards d ++
          (SUITS.flatMap fun suit => RANKS.map fun rank => Card.mk rank suit) := by
      rw [freshCards, List.range_succ, List.flatMap_append, freshCards]
      simp
    rw [hsplit, List.length_append, freshCards_length d]
    have h52 :
        (SUITS.flatMap fun suit => RANKS.map fun rank => Card.mk rank suit).length
          = 52 := by decide
    rw [h52]
    ring

theorem draw_of_ne_nil {s : Shoe} (shuffle : List Card → List Card)
    (h : s.cards ≠ []) :
    (Shoe.draw shuffle s).1.isSome = true ∧
    (Shoe.draw shuffle s).2.cards_remaining = s.cards_remaining - 1 ∧
    (Shoe.draw shuffle s).2.decks = s.decks := by
  have hne : s.cards.isEmpty = false := by
    rw [List.isEmpty_eq_false]
    exact h
  constructor
  · simp only [Shoe.draw, hne, Bool.false_eq_true, if_false]
    exact List.getLast?_isSome.2 h
  · constructor
    · simp only [Shoe.draw, hne, Bool.false_eq_true, if_false, Shoe.cards_remaining]
      exact List.length_dropLast s.cards
    · simp [Shoe.draw, hne]

theorem drawK_of_le (shuffle : List Card → List Card) :
    ∀ (k : ℕ) (s : Shoe), k ≤ s.cards_remaining →
      (Shoe.drawK shuffle k s).cards_remaining = s.cards_remaining - k ∧
      (Shoe.drawK shuffle k s).decks = s.decks
  | 0, s, _ => ⟨rfl, rfl⟩
  | k + 1, s, hk => by
    have hne : s.cards ≠ [] := by
      intro hnil
      rw [Shoe.cards_remaining, hnil] at hk
      simp at hk
    obtain ⟨_, hlen, hdecks⟩ := draw_of_ne_nil shuffle hne
    have hk' : k ≤ (Shoe.draw shuffle s).2.cards_remaining := by
      rw [hlen]
      omega
    obtain ⟨ih1, ih2⟩ := drawK_of_le shuffle k (Shoe.draw shuffle s).2 hk'
    rw [Shoe.drawK]
    refine ⟨?_, ih2.trans hdecks⟩
    rw [ih1, hlen]
    omega

/-- **C8.** `Shoe.draw` never fails: on a non-empty shoe it removes
exactly one card; on an empty shoe it reshuffles a full `52×decks`-card
refill and removes one card, leaving `52×decks − 1`; and dealing `k ≤
cards_remaining` cards removes exactly `k` (no refill can trigger
mid-deal). -/
theorem shoe_draw_never_exhausted (s : Shoe) (shuffle : List Card → List Card)
    (hperm : ∀ l, (shuffle l).Perm l) (hdecks : 1 ≤ s.decks) :
    (0 < s.cards_remaining →
      (Shoe.draw shuffle s).1.isSome = true ∧
      (Shoe.draw shuffle s).2.cards_remaining = s.cards_remaining - 1) ∧
    (s.cards_remaining = 0 →
      (Shoe.draw shuffle s).1.isSome = true ∧
      (Shoe.draw shuffle s).2.cards_remaining = 52 * s.decks - 1) ∧
    (∀ k, k ≤ s.cards_remaining →
      (Shoe.drawK shuffle k s).cards_remaining = s.cards_remaining - k) := by
  refine ⟨?_, ?_, fun k hk => (drawK_of_le shuffle k s hk).1⟩
  · intro hpos
    have hne : s.cards ≠ [] := by
      intro hnil
      rw [Shoe.cards_remaining, hnil] at hpos
      simp at hpos
    obtain ⟨h1, h2, _⟩ := draw_of_ne_nil shuffle hne
    exact ⟨h1, h2⟩
  · intro hzero
    have hnil : s.cards = [] := by
      rw [Shoe.cards_remaining] at hzero
      exact List.length_eq_zero.1 hzero
    have hempty : s.cards.isEmpty = true := by
      rw [List.isEmpty_iff]
      exact hnil
    have hfull : (shuffle (freshCards s.decks)).length = 52 * s.decks := by
      rw [(hperm (freshCards s.decks)).length_eq, freshCards_length]
    have hfne : shuffle (freshCards s.decks) ≠ [] := by
      intro h
      rw [h] at hfull
      simp at hfull
      omega
    constructor
    · simp only [Shoe.draw, hempty, if_true, Shoe.reshuffle]
      exact List.getLast?_isSome.2 hfne
    · simp only [Shoe.draw, hempty, if_true, Shoe.reshuffle, Shoe.cards_remaining]
      rw [List.length_dropLast, hfull]

/-- Witness for C8: the empty one-deck shoe refills to 51 after a draw,
and dealing 3 cards from a full deck leaves 49. -/
theorem shoe_draw_never_exhausted_witness :
    ((Shoe.draw id ⟨1, []⟩).1.isSome = true ∧
      (Shoe.draw id ⟨1, []⟩).2.cards_remaining = 52 * 1 - 1) ∧
    (Shoe.drawK id 3 ⟨1, freshCards 1⟩).cards_remaining =
      (⟨1, freshCards 1⟩ : Shoe).cards_remaining - 3 := by
  have h := shoe_draw_never_exhausted ⟨1, []⟩ id
    (fun l => List.Perm.refl l) (by decide)
  have h' := shoe_draw_never_exhausted ⟨1, freshCards 1⟩ id
    (fun l => List.Perm.refl l) (by decide)
  exact ⟨h.2.1 rfl, h'.2.2 3 (by decide)⟩

/-! ## Dealer rule facts (claim C6) -/

theorem is_soft_spec (h : Hand) (hranks : ∀ c ∈ h.cards, c.rank ∈ RANKS) :
    h.is_soft = true ↔
      ((∃ t, SpecTotal h.cards t ∧ t ≤ 21) ∧
        ∃ t1 t2, SpecTotal h.cards t1 ∧ SpecTotal h.cards t2 ∧ t1 ≠ t2) := by
  simp only [Hand.is_soft, decide_eq_true_eq, Bool.and_eq_true,
    List.any_eq_true, ne_eq]
  constructor
  · rintro ⟨⟨t, ht, ht21⟩, hmaxmin⟩
    refine ⟨⟨t, (mem_hand_values hranks).1 ht, ht21⟩, ?_⟩
    have hne : h.values ≠ [] := hand_values_ne_nil h hranks
    refine ⟨listMax h.values, listMin h.values,
      (mem_hand_values hranks).1 (listMax_mem hne),
      (mem_hand_values hranks).1 (listMin_mem hne), ?_⟩
    simpa using hmaxmin
  · rintro ⟨⟨t, ht, ht21⟩, t1, t2, ht1, ht2, hne12⟩
    refine ⟨⟨t, (mem_hand_values hranks).2 ht, ht21⟩, ?_⟩
    intro heq
    have hall : ∀ x ∈ h.values, x = listMax h.values := by
      intro x hx
      have h1 := le_listMax x hx
      have h2 := listMin_le x hx
      omega
    have e1 := hall t1 ((mem_hand_values hranks).2 ht1)
    have e2 := hall t2 ((mem_hand_values hranks).2 ht2)
    exact hne12 (e1.trans e2.symm)

/-- **C6.** The dealer hits exactly while the best total is below 17, or
equals 17 with a soft hand under the hit-soft-17 configuration — where
"soft" means some total is ≤ 21 and the totals are not all one value; a
standing dealer draws no card, a hitting dealer draws exactly one and
continues. -/
theorem dealer_hit_rule (flag : Bool) (hand : Hand)
    (hranks : ∀ c ∈ hand.cards, c.rank ∈ RANKS)
    (shuffle : List Card → List Card) (fuel : ℕ) (shoe : Shoe) :
    (dealer_should_hit flag hand = true ↔
      (hand.best_value < 17 ∨
        (hand.best_value = 17 ∧
          ((∃ t, SpecTotal hand.cards t ∧ t ≤ 21) ∧
            ∃ t1 t2, SpecTotal hand.cards t1 ∧ SpecTotal hand.cards t2 ∧
              t1 ≠ t2) ∧
          flag = true))) ∧
    (dealer_should_hit flag hand = false →
      dealerTurn shuffle flag (fuel + 1) hand shoe = .ok (hand, shoe)) ∧
    (dealer_should_hit flag hand = true →
      ∀ card shoe', Shoe.draw shuffle shoe = (some card, shoe') →
        dealerTurn shuffle flag (fuel + 1) hand shoe =
          dealerTurn shuffle flag fuel (hand.add_card card) shoe') := by
  refine ⟨?_, ?_, ?_⟩
  · rw [dealer_should_hit]
    split_ifs with h1 h2
    · simp only [true_iff]
      exact Or.inl h1
    · simp only [true_iff]
      obtain ⟨hb, hsoft, hflag⟩ := h2
      exact Or.inr ⟨hb, (is_soft_spec hand hranks).1 hsoft, hflag⟩
    · simp only [Bool.false_eq_true, false_iff]
      rintro (hc | ⟨hb, hsp, hflag⟩)
      · exact h1 hc
      · exact h2 ⟨hb, (is_soft_spec hand hranks).2 hsp, hflag⟩
  · intro hstand
    rw [dealerTurn, hstand]
    simp
  · intro hhit card shoe' hdraw
    rw [dealerTurn, hhit, hdraw]
    simp

/-- Witness for C6: a hard 17 (K♠ 7♦) stands even under the hit-soft-17
configuration, and a soft 17 (A♠ 6♦) draws under it. -/
theorem dealer_hit_rule_witness :
    dealerTurn id true (5 + 1) ⟨[⟨"K", "♠"⟩, ⟨"7", "♦"⟩]⟩ ⟨1, []⟩ =
      .ok (⟨[⟨"K", "♠"⟩, ⟨"7", "♦"⟩]⟩, ⟨1, []⟩) ∧
    dealer_should_hit true ⟨[⟨"A", "♠"⟩, ⟨"6", "♦"⟩]⟩ = true := by
  constructor
  · exact (dealer_hit_rule true ⟨[⟨"K", "♠"⟩, ⟨"7", "♦"⟩]⟩ (by decide) id 5
      ⟨1, []⟩).2.1 (by decide)
  · have h := (dealer_hit_rule true ⟨[⟨"A", "♠"⟩, ⟨"6", "♦"⟩]⟩ (by decide) id 5
      ⟨1, []⟩).1
    rw [h]
    refine Or.inr ⟨by decide, ⟨⟨17, ?_, by omega⟩, 17, 7, ?_, ?_, by omega⟩, rfl⟩
    · have e : (11 : ℕ) + 6 = 17 := by omega
      rw [← e]
      exact SpecTotal.cons (by decide) (by
        have e2 : (6 : ℕ) + 0 = 6 := by omega
        rw [← e2]
        exact SpecTotal.cons (by decide) SpecTotal.nil)
    · have e : (11 : ℕ) + 6 = 17 := by omega
      rw [← e]
      exact SpecTotal.cons (by decide) (by
        have e2 : (6 : ℕ) + 0 = 6 := by omega
        rw [← e2]
        exact SpecTotal.cons (by decide) SpecTotal.nil)
    · have e : (1 : ℕ) + 6 = 7 := by omega
      rw [← e]
      exact SpecTotal.cons (by decide) (by
        have e2 : (6 : ℕ) + 0 = 6 := by omega
        rw [← e2]
        exact SpecTotal.cons (by decide) SpecTotal.nil)

/-! ## Randomness injection (claim C9)

`Shoe.__init__` accepts an `rng`, but `BlackjackGame.__init__` constructs
`Shoe(decks)` without exposing it: the game's randomness comes from the
ambient environment (`envShuffle`), not from any constructor argument. -/

/-- **C9 counterexample.** Two game sessions constructed through the
engine's construction surface with identical players, strategies and
configuration (here: no players, one deck, soft-17 off) do not produce
identical card sequences: the ambient, non-injectable randomness differs
between the two runs. -/
theorem game_construction_not_reproducible :
    (mkBlackjackGame [] 1 false id).toOption.map (fun g => g.shoe.cards) ≠
    (mkBlackjackGame [] 1 false List.reverse).toOption.map
      (fun g => g.shoe.cards) := by
  decide

/-- **C9 amended.** Reproducibility holds one level down: the `Shoe`'s
randomness source is injectable, and two game sessions built from the same
players, configuration and the same shuffle outcomes are identical — same
card sequences and same `play_round` results.  (The `BlackjackGame`
construction surface itself does not expose the randomness source.) -/
theorem reproducible_given_same_shuffle (players : List PlayerConfig)
    (decks : ℕ) (flag : Bool) (shuffle : List Card → List Card) (fuel : ℕ)
    (g1 g2 : BlackjackGame)
    (h1 : mkBlackjackGame players decks flag shuffle = .ok g1)
    (h2 : mkBlackjackGame players decks flag shuffle = .ok g2) :
    g1.shoe.cards = g2.shoe.cards ∧
    play_round shuffle fuel g1 = play_round shuffle fuel g2 := by
  have heq : g1 = g2 := by
    have := h1.symm.trans h2
    exact Except.ok.inj this
  rw [heq]
  exact ⟨rfl, rfl⟩

/-- Witness for the amended C9, at one deck and the identity shuffle. -/
theorem reproducible_given_same_shuffle_witness :
    (⟨[], false, ⟨1, freshCards 1⟩, 0⟩ : BlackjackGame).shoe.cards =
      (⟨[], false, ⟨1, freshCards 1⟩, 0⟩ : BlackjackGame).shoe.cards ∧
    play_round id 1 ⟨[], false, ⟨1, freshCards 1⟩, 0⟩ =
      play_round id 1 ⟨[], false, ⟨1, freshCards 1⟩, 0⟩ :=
  reproducible_given_same_shuffle [] 1 false id 1 _ _ rfl rfl

/-! ## Player-turn loop facts (claims C3, C4, C7) -/

theorem hit_mem_allowed (hand : Hand) (bankroll bet : ℚ) :
    "hit" ∈ turnAllowedActions hand bankroll bet := by
  unfold turnAllowedActions
  split_ifs <;> decide

theorem stand_mem_allowed (hand : Hand) (bankroll bet : ℚ) :
    "stand" ∈ turnAllowedActions hand bankroll bet := by
  unfold turnAllowedActions
  split_ifs <;> decide

theorem double_mem_allowed_iff (hand : Hand) (bankroll bet : ℚ) :
    "double" ∈ turnAllowedActions hand bankroll bet ↔
      (hand.cards.length = 2 ∧ bankroll ≥ bet * 2) := by
  unfold turnAllowedActions
  split_ifs with h
  · simp only [iff_true_intro h, iff_true]
    decide
  · simp only [iff_false_intro h, iff_false]
    decide

theorem playerTurnLoop_invalid_action (shuffle : List Card → List Card)
    (strategy : Strategy) (rn : ℕ) (upcard : Card) (bankroll : ℚ)
    (fuel : ℕ) (hand : Hand) (bet : ℚ) (shoe : Shoe)
    (acc : List RoundSnapshot)
    (hinv : strategy.decide (mkTurnSnapshot rn hand upcard
        (turnAllowedActions hand bankroll bet) shoe bankroll bet) ∉
      turnAllowedActions hand bankroll bet) :
    playerTurnLoop shuffle strategy rn upcard bankroll (fuel + 1) hand bet
        shoe acc =
      .error ("Strategy " ++ strategy.name ++ " returned invalid action " ++
        strategy.decide (mkTurnSnapshot rn hand upcard
          (turnAllowedActions hand bankroll bet) shoe bankroll bet)) := by
  simp only [playerTurnLoop]
  rw [if_pos hinv]

theorem playerTurnLoop_stand (shuffle : List Card → List Card)
    (strategy : Strategy) (rn : ℕ) (upcard : Card) (bankroll : ℚ)
    (fuel : ℕ) (hand : Hand) (bet : ℚ) (shoe : Shoe)
    (acc : List RoundSnapshot)
    (hdec : strategy.decide (mkTurnSnapshot rn hand upcard
        (turnAllowedActions hand bankroll bet) shoe bankroll bet) = "stand") :
    playerTurnLoop shuffle strategy rn upcard bankroll (fuel + 1) hand bet
        shoe acc =
      .ok ⟨hand, bet, shoe, acc ++ [mkTurnSnapshot rn hand upcard
        (turnAllowedActions hand bankroll bet) shoe bankroll bet]⟩ := by
  simp only [playerTurnLoop, hdec]
  rw [if_neg (not_not_intro (stand_mem_allowed hand bankroll bet))]
  rw [if_neg (by decide : ¬("stand" : String) = "hit")]
  rw [if_neg (by decide : ¬("stand" : String) = "double")]

theorem playerTurnLoop_double (shuffle : List Card → List Card)
    (strategy : Strategy) (rn : ℕ) (upcard : Card) (bankroll : ℚ)
    (fuel : ℕ) (hand : Hand) (bet : ℚ) (shoe : Shoe)
    (acc : List RoundSnapshot)
    (hdec : strategy.decide (mkTurnSnapshot rn hand upcard
        (turnAllowedActions hand bankroll bet) shoe bankroll bet) = "double")
    (hlen : hand.cards.length = 2) (hbank : bankroll ≥ bet * 2)
    (card : Card) (shoe' : Shoe)
    (hdraw : Shoe.draw shuffle shoe = (some card, shoe')) :
    playerTurnLoop shuffle strategy rn upcard bankroll (fuel + 1) hand bet
        shoe acc =
      .ok ⟨hand.add_card card, bet * 2, shoe', acc ++ [mkTurnSnapshot rn hand
        upcard (turnAllowedActions hand bankroll bet) shoe bankroll bet]⟩ := by
  have hmem : "double" ∈ turnAllowedActions hand bankroll bet :=
    (double_mem_allowed_iff hand bankroll bet).2 ⟨hlen, hbank⟩
  simp only [playerTurnLoop, hdec]
  rw [if_neg (not_not_intro hmem)]
  rw [if_neg (by decide : ¬("double" : String) = "hit")]
  rw [if_pos trivial, hdraw]

theorem playerTurnLoop_hit_end (shuffle : List Card → List Card)
    (strategy : Strategy) (rn : ℕ) (upcard : Card) (bankroll : ℚ)
    (fuel : ℕ) (hand : Hand) (bet : ℚ) (shoe : Shoe)
    (acc : List RoundSnapshot)
    (hdec : strategy.decide (mkTurnSnapshot rn hand upcard
        (turnAllowedActions hand bankroll bet) shoe bankroll bet) = "hit")
    (card : Card) (shoe' : Shoe)
    (hdraw : Shoe.draw shuffle shoe = (some card, shoe'))
    (hend : (hand.add_card card).is_bust = true ∨
      (hand.add_card card).is_blackjack = true) :
    playerTurnLoop shuffle strategy rn upcard bankroll (fuel + 1) hand bet
        shoe acc =
      .ok ⟨hand.add_card card, bet, shoe', acc ++ [mkTurnSnapshot rn hand
        upcard (turnAllowedActions hand bankroll bet) shoe bankroll bet]⟩ := by
  simp only [playerTurnLoop, hdec]
  rw [if_neg (not_not_intro (hit_mem_allowed hand bankroll bet))]
  rw [if_pos trivial, hdraw]
  simp only [if_pos hend]

theorem playerTurnLoop_hit_continue (shuffle : List Card → List Card)
    (strategy : Strategy) (rn : ℕ) (upcard : Card) (bankroll : ℚ)
    (fuel : ℕ) (hand : Hand) (bet : ℚ) (shoe : Shoe)
    (acc : List RoundSnapshot)
    (hdec : strategy.decide (mkTurnSnapshot rn hand upcard
        (turnAllowedActions hand bankroll bet) shoe bankroll bet) = "hit")
    (card : Card) (shoe' : Shoe)
    (hdraw : Shoe.draw shuffle shoe = (some card, shoe'))
    (hcont : ¬((hand.add_card card).is_bust = true ∨
      (hand.add_card card).is_blackjack = true)) :
    playerTurnLoop shuffle strategy rn upcard bankroll (fuel + 1) hand bet
        shoe acc =
      playerTurnLoop shuffle strategy rn upcard bankroll fuel
        (hand.add_card card) bet shoe'
        (acc ++ [mkTurnSnapshot rn hand upcard
          (turnAllowedActions hand bankroll bet) shoe bankroll bet]) := by
  simp only [playerTurnLoop, hdec]
  rw [if_neg (not_not_intro (hit_mem_allowed hand bankroll bet))]
  rw [if_pos trivial, hdraw]
  simp only [if_neg hcont]

/-- Every snapshot a successful decision loop records (beyond its
accumulator) was built by `mkTurnSnapshot`, carries the computed legal
actions and the fixed bankroll, and received a legal decision. -/
theorem playerTurnLoop_snapshots (shuffle : List Card → List Card)
    (strategy : Strategy) (rn : ℕ) (upcard : Card) (bankroll : ℚ) :
    ∀ (fuel : ℕ) (hand : Hand) (bet : ℚ) (shoe : Shoe)
      (acc : List RoundSnapshot) (r : TurnResult),
      playerTurnLoop shuffle strategy rn upcard bankroll fuel hand bet shoe
          acc = .ok r →
      ∀ snap ∈ r.decideSnapshots, snap ∈ acc ∨
        (snap.allowed_actions =
            turnAllowedActions snap.hand bankroll snap.bet_amount ∧
          snap.player_bankroll = bankroll ∧
          strategy.decide snap ∈ snap.allowed_actions)
  | 0, hand, bet, shoe, acc, r => by
    intro hok
    cases hok
  | fuel + 1, hand, bet, shoe, acc, r => by
    intro hok snap hsnap
    set snap₀ := mkTurnSnapshot rn hand upcard
      (turnAllowedActions hand bankroll bet) shoe bankroll bet with hsnap₀
    have hprops : snap = snap₀ →
        snap.allowed_actions =
            turnAllowedActions snap.hand bankroll snap.bet_amount ∧
          snap.player_bankroll = bankroll := by
      rintro rfl
      exact ⟨rfl, rfl⟩
    by_cases hval : strategy.decide snap₀ ∈ turnAllowedActions hand bankroll bet
    · have hvalsnap : snap = snap₀ → strategy.decide snap ∈ snap.allowed_actions := by
        rintro rfl
        exact hval
      by_cases hhit : strategy.decide snap₀ = "hit"
      · rcases hdraw : Shoe.draw shuffle shoe with ⟨c?, shoe'⟩
        rcases c? with _ | card
        · rw [playerTurnLoop] at hok
          rw [if_neg (not_not_intro hval), if_pos hhit, hdraw] at hok
          cases hok
        · by_cases hend : (hand.add_card card).is_bust = true ∨
            (hand.add_card card).is_blackjack = true
          · rw [playerTurnLoop_hit_end shuffle strategy rn upcard bankroll fuel
              hand bet shoe acc hhit card shoe' hdraw hend] at hok
            cases hok
            simp only [List.mem_append, List.mem_singleton] at hsnap
            rcases hsnap with h | h
            · exact Or.inl h
            · exact Or.inr ⟨(hprops h).1, (hprops h).2, hvalsnap h⟩
          · rw [playerTurnLoop_hit_continue shuffle strategy rn upcard bankroll
              fuel hand bet shoe acc hhit card shoe' hdraw hend] at hok
            have := playerTurnLoop_snapshots shuffle strategy rn upcard bankroll
              fuel (hand.add_card card) bet shoe' (acc ++ [snap₀]) r hok snap hsnap
            rcases this with h | h
            · simp only [List.mem_append, List.mem_singleton] at h
              rcases h with h | h
              · exact Or.inl h
              · exact Or.inr ⟨(hprops h).1, (hprops h).2, hvalsnap h⟩
            · exact Or.inr h
      · by_cases hdbl : strategy.decide snap₀ = "double"
        · rcases hdraw : Shoe.draw shuffle shoe with ⟨c?, shoe'⟩
          rcases c? with _ | card
          · rw [playerTurnLoop] at hok
            rw [if_neg (not_not_intro hval), if_neg hhit, if_pos hdbl, hdraw]
              at hok
            cases hok
          · have hmem := (double_mem_allowed_iff hand bankroll bet).1
              (hdbl ▸ hval)
            rw [playerTurnLoop_double shuffle strategy rn upcard bankroll fuel
              hand bet shoe acc hdbl hmem.1 hmem.2 card shoe' hdraw] at hok
            cases hok
            simp only [List.mem_append, List.mem_singleton] at hsnap
            rcases hsnap with h | h
            · exact Or.inl h
            · exact Or.inr ⟨(hprops h).1, (hprops h).2, hvalsnap h⟩
        · have hstand : strategy.decide snap₀ = "stand" := by
            have := hval
            rw [turnAllowedActions] at this
            rcases List.mem_append.1 this with h | h
            · simp only [List.mem_cons, List.not_mem_nil, or_false] at h
              rcases h with h | h
              · exact absurd h hhit
              · exact h
            · split_ifs at h with hc
              · simp only [List.mem_singleton] at h
                exact absurd h hdbl
              · simp at h
          rw [playerTurnLoop_stand shuffle strategy rn upcard bankroll fuel
            hand bet shoe acc hstand] at hok
          cases hok
          simp only [List.mem_append, List.mem_singleton] at hsnap
          rcases hsnap with h | h
          · exact Or.inl h
          · exact Or.inr ⟨(hprops h).1, (hprops h).2, hvalsnap h⟩
    · rw [playerTurnLoop_invalid_action shuffle strategy rn upcard bankroll fuel
        hand bet shoe acc hval] at hok
      cases hok

/-- A successful decision loop leaves the bet unchanged, or doubles it
exactly once — and doubling implies the bankroll covered twice the bet. -/
theorem playerTurnLoop_bet (shuffle : List Card → List Card)
    (strategy : Strategy) (rn : ℕ) (upcard : Card) (bankroll : ℚ) :
    ∀ (fuel : ℕ) (hand : Hand) (bet : ℚ) (shoe : Shoe)
      (acc : List RoundSnapshot) (r : TurnResult),
      playerTurnLoop shuffle strategy rn upcard bankroll fuel hand bet shoe
          acc = .ok r →
      r.bet = bet ∨ (r.bet = bet * 2 ∧ bankroll ≥ bet * 2)
  | 0, hand, bet, shoe, acc, r => by
    intro hok
    cases hok
  | fuel + 1, hand, bet, shoe, acc, r => by
    intro hok
    set snap₀ := mkTurnSnapshot rn hand upcard
      (turnAllowedActions hand bankroll bet) shoe bankroll bet with hsnap₀
    by_cases hval : strategy.decide snap₀ ∈ turnAllowedActions hand bankroll bet
    · by_cases hhit : strategy.decide snap₀ = "hit"
      · rcases hdraw : Shoe.draw shuffle shoe with ⟨c?, shoe'⟩
        rcases c? with _ | card
        · rw [playerTurnLoop] at hok
          rw [if_neg (not_not_intro hval), if_pos hhit, hdraw] at hok
          cases hok
        · by_cases hend : (hand.add_card card).is_bust = true ∨
            (hand.add_card card).is_blackjack = true
          · rw [playerTurnLoop_hit_end shuffle strategy rn upcard bankroll fuel
              hand bet shoe acc hhit card shoe' hdraw hend] at hok
            cases hok
            exact Or.inl rfl
          · rw [playerTurnLoop_hit_continue shuffle strategy rn upcard bankroll
              fuel hand bet shoe acc hhit card shoe' hdraw hend] at hok
            exact playerTurnLoop_bet shuffle strategy rn upcard bankroll fuel
              (hand.add_card card) bet shoe' (acc ++ [snap₀]) r hok
      · by_cases hdbl : strategy.decide snap₀ = "double"
        · rcases hdraw : Shoe.draw shuffle shoe with ⟨c?, shoe'⟩
          rcases c? with _ | card
          · rw [playerTurnLoop] at hok
            rw [if_neg (not_not_intro hval), if_neg hhit, if_pos hdbl, hdraw]
              at hok
            cases hok
          · have hmem := (double_mem_allowed_iff hand bankroll bet).1
              (hdbl ▸ hval)
            rw [playerTurnLoop_double shuffle strategy rn upcard bankroll fuel
              hand bet shoe acc hdbl hmem.1 hmem.2 card shoe' hdraw] at hok
            cases hok
            exact Or.inr ⟨rfl, hmem.2⟩
        · have hstand : strategy.decide snap₀ = "stand" := by
            have := hval
            rw [turnAllowedActions] at this
            rcases List.mem_append.1 this with h | h
            · simp only [List.mem_cons, List.not_mem_nil, or_false] at h
              rcases h with h | h
              · exact absurd h hhit
              · exact h
            · split_ifs at h with hc
              · simp only [List.mem_singleton] at h
                exact absurd h hdbl
              · simp at h
          rw [playerTurnLoop_stand shuffle strategy rn upcard bankroll fuel
            hand bet shoe acc hstand] at hok
          cases hok
          exact Or.inl rfl
    · rw [playerTurnLoop_invalid_action shuffle strategy rn upcard bankroll fuel
        hand bet shoe acc hval] at hok
      cases hok

/-- **C4.** At every decision point the snapshot's allowed actions contain
hit and stand, and double exactly when the hand has two cards and the
bankroll is at least twice the current bet; a (legal) double doubles the
bet, draws exactly one card and ends the turn unconditionally; a stand
ends the turn with no card drawn. -/
theorem allowed_actions_double_stand_spec (shuffle : List Card → List Card)
    (strategy : Strategy) (rn : ℕ) (upcard : Card) (bankroll : ℚ)
    (fuel : ℕ) (hand : Hand) (bet : ℚ) (shoe : Shoe)
    (acc : List RoundSnapshot) :
    (∀ r, playerTurnLoop shuffle strategy rn upcard bankroll fuel hand bet
        shoe [] = .ok r →
      ∀ snap ∈ r.decideSnapshots,
        "hit" ∈ snap.allowed_actions ∧ "stand" ∈ snap.allowed_actions ∧
          ("double" ∈ snap.allowed_actions ↔
            (snap.hand.cards.length = 2 ∧
              snap.player_bankroll ≥ 2 * snap.bet_amount))) ∧
    (strategy.decide (mkTurnSnapshot rn hand upcard
        (turnAllowedActions hand bankroll bet) shoe bankroll bet) = "double" →
      hand.cards.length = 2 → bankroll ≥ 2 * bet →
      ∀ card shoe', Shoe.draw shuffle shoe = (some card, shoe') →
        playerTurnLoop shuffle strategy rn upcard bankroll (fuel + 1) hand bet
            shoe acc =
          .ok ⟨hand.add_card card, bet * 2, shoe', acc ++ [mkTurnSnapshot rn
            hand upcard (turnAllowedActions hand bankroll bet) shoe bankroll
            bet]⟩) ∧
    (strategy.decide (mkTurnSnapshot rn hand upcard
        (turnAllowedActions hand bankroll bet) shoe bankroll bet) = "stand" →
      playerTurnLoop shuffle strategy rn upcard bankroll (fuel + 1) hand bet
          shoe acc =
        .ok ⟨hand, bet, shoe, acc ++ [mkTurnSnapshot rn hand upcard
          (turnAllowedActions hand bankroll bet) shoe bankroll bet]⟩) := by
  refine ⟨?_, ?_, ?_⟩
  · intro r hok snap hsnap
    rcases playerTurnLoop_snapshots shuffle strategy rn upcard bankroll fuel
      hand bet shoe [] r hok snap hsnap with h | ⟨hall, hbank, _⟩
    · exact absurd h (List.not_mem_nil snap)
    · rw [hall, hbank]
      refine ⟨hit_mem_allowed _ _ _, stand_mem_allowed _ _ _, ?_⟩
      rw [double_mem_allowed_iff]
      constructor
      · rintro ⟨h1, h2⟩
        exact ⟨h1, by linarith⟩
      · rintro ⟨h1, h2⟩
        exact ⟨h1, by linarith⟩
  · intro hdec hlen hbank card shoe' hdraw
    exact playerTurnLoop_double shuffle strategy rn upcard bankroll fuel hand
      bet shoe acc hdec hlen (by linarith) card shoe' hdraw
  · intro hdec
    exact playerTurnLoop_stand shuffle strategy rn upcard bankroll fuel hand
      bet shoe acc hdec

/-- Witness for C4: with bankroll 50 and bet 30 the only recorded decision
point offers no double; an always-double strategy with bankroll 100 and
bet 10 doubles the bet to 20, draws exactly one card, and ends the turn. -/
theorem allowed_actions_double_stand_spec_witness :
    (∀ snap ∈ [mkTurnSnapshot 1 ⟨[⟨"10", "♠"⟩, ⟨"9", "♥"⟩]⟩ ⟨"7", "♦"⟩
        (turnAllowedActions ⟨[⟨"10", "♠"⟩, ⟨"9", "♥"⟩]⟩ 50 30)
        (⟨1, []⟩ : Shoe) 50 30],
      "double" ∉ snap.allowed_actions) ∧
    playerTurnLoop id ⟨"AlwaysDouble", fun _ => "double"⟩ 1 ⟨"7", "♦"⟩ 100
        (4 + 1) ⟨[⟨"5", "♠"⟩, ⟨"6", "♠"⟩]⟩ 10 ⟨1, [⟨"10", "♠"⟩]⟩ [] =
      .ok ⟨Hand.add_card ⟨[⟨"5", "♠"⟩, ⟨"6", "♠"⟩]⟩ ⟨"10", "♠"⟩, 10 * 2,
        ⟨1, []⟩,
        [mkTurnSnapshot 1 ⟨[⟨"5", "♠"⟩, ⟨"6", "♠"⟩]⟩ ⟨"7", "♦"⟩
          (turnAllowedActions ⟨[⟨"5", "♠"⟩, ⟨"6", "♠"⟩]⟩ 100 10)
          ⟨1, [⟨"10", "♠"⟩]⟩ 100 10]⟩ := by
  constructor
  · intro snap hsnap hdouble
    have hok : playerTurnLoop id SimpleStrategy 1 ⟨"7", "♦"⟩ 50 (4 + 1)
        ⟨[⟨"10", "♠"⟩, ⟨"9", "♥"⟩]⟩ 30 ⟨1, []⟩ [] =
        .ok ⟨⟨[⟨"10", "♠"⟩, ⟨"9", "♥"⟩]⟩, 30, ⟨1, []⟩,
          [mkTurnSnapshot 1 ⟨[⟨"10", "♠"⟩, ⟨"9", "♥"⟩]⟩ ⟨"7", "♦"⟩
            (turnAllowedActions ⟨[⟨"10", "♠"⟩, ⟨"9", "♥"⟩]⟩ 50 30)
            ⟨1, []⟩ 50 30]⟩ :=
      playerTurnLoop_stand id SimpleStrategy 1 ⟨"7", "♦"⟩ 50 4
        ⟨[⟨"10", "♠"⟩, ⟨"9", "♥"⟩]⟩ 30 ⟨1, []⟩ [] rfl
    have h := (allowed_actions_double_stand_spec id SimpleStrategy 1
      ⟨"7", "♦"⟩ 50 (4 + 1) ⟨[⟨"10", "♠"⟩, ⟨"9", "♥"⟩]⟩ 30 ⟨1, []⟩ []).1
      _ hok snap hsnap
    have h2 := h.2.2.1 hdouble
    simp only [List.mem_singleton] at hsnap
    rw [hsnap] at h2
    have hno : ¬((50 : ℚ) ≥ 2 * 30) := by norm_num
    exact hno h2.2
  · exact (allowed_actions_double_stand_spec id
      ⟨"AlwaysDouble", fun _ => "double"⟩ 1 ⟨"7", "♦"⟩ 100 4
      ⟨[⟨"5", "♠"⟩, ⟨"6", "♠"⟩]⟩ 10 ⟨1, [⟨"10", "♠"⟩]⟩ []).2.1 rfl rfl
      (by norm_num) ⟨"10", "♠"⟩ ⟨1, []⟩ rfl

/-- **C3 counterexample.** It is not the case that a hit reaching a best
value of exactly 21 ends the turn: running the repository's own
`SimpleStrategy` (hit below 16) on the hand 5♠ 6♠ with a 10♠ on the shoe,
the strategy is queried again on the three-card hand whose best value is
21. -/
theorem hit_to_21_does_not_end_turn :
    ¬ (∀ (shuffle : List Card → List Card) (strategy : Strategy) (rn : ℕ)
        (upcard : Card) (bankroll : ℚ) (fuel : ℕ) (hand : Hand) (bet : ℚ)
        (shoe : Shoe) (r : TurnResult),
        playerTurnLoop shuffle strategy rn upcard bankroll fuel hand bet shoe
            [] = .ok r →
        ∀ snap ∈ r.decideSnapshots,
          ¬(3 ≤ snap.hand.cards.length ∧ snap.hand.best_value = 21)) := by
  intro h
  have hok₁ : playerTurnLoop id SimpleStrategy 1 ⟨"2", "♠"⟩ 100 (4 + 1)
      ⟨[⟨"5", "♠"⟩, ⟨"6", "♠"⟩, ⟨"10", "♠"⟩]⟩ 10 ⟨1, []⟩
      [mkTurnSnapshot 1 ⟨[⟨"5", "♠"⟩, ⟨"6", "♠"⟩]⟩ ⟨"2", "♠"⟩
        (turnAllowedActions ⟨[⟨"5", "♠"⟩, ⟨"6", "♠"⟩]⟩ 100 10)
        ⟨1, [⟨"10", "♠"⟩]⟩ 100 10] =
      .ok ⟨⟨[⟨"5", "♠"⟩, ⟨"6", "♠"⟩, ⟨"10", "♠"⟩]⟩, 10, ⟨1, []⟩,
        [mkTurnSnapshot 1 ⟨[⟨"5", "♠"⟩, ⟨"6", "♠"⟩]⟩ ⟨"2", "♠"⟩
          (turnAllowedActions ⟨[⟨"5", "♠"⟩, ⟨"6", "♠"⟩]⟩ 100 10)
          ⟨1, [⟨"10", "♠"⟩]⟩ 100 10,
         mkTurnSnapshot 1 ⟨[⟨"5", "♠"⟩, ⟨"6", "♠"⟩, ⟨"10", "♠"⟩]⟩ ⟨"2", "♠"⟩
          (turnAllowedActions ⟨[⟨"5", "♠"⟩, ⟨"6", "♠"⟩, ⟨"10", "♠"⟩]⟩ 100 10)
          ⟨1, []⟩ 100 10]⟩ :=
    playerTurnLoop_stand id SimpleStrategy 1 ⟨"2", "♠"⟩ 100 4
      ⟨[⟨"5", "♠"⟩, ⟨"6", "♠"⟩, ⟨"10", "♠"⟩]⟩ 10 ⟨1, []⟩ _ rfl
  have hok : playerTurnLoop id SimpleStrategy 1 ⟨"2", "♠"⟩ 100 (5 + 1)
      ⟨[⟨"5", "♠"⟩, ⟨"6", "♠"⟩]⟩ 10 ⟨1, [⟨"10", "♠"⟩]⟩ [] =
      .ok ⟨⟨[⟨"5", "♠"⟩, ⟨"6", "♠"⟩, ⟨"10", "♠"⟩]⟩, 10, ⟨1, []⟩,
        [mkTurnSnapshot 1 ⟨[⟨"5", "♠"⟩, ⟨"6", "♠"⟩]⟩ ⟨"2", "♠"⟩
          (turnAllowedActions ⟨[⟨"5", "♠"⟩, ⟨"6", "♠"⟩]⟩ 100 10)
          ⟨1, [⟨"10", "♠"⟩]⟩ 100 10,
         mkTurnSnapshot 1 ⟨[⟨"5", "♠"⟩, ⟨"6", "♠"⟩, ⟨"10", "♠"⟩]⟩ ⟨"2", "♠"⟩
          (turnAllowedActions ⟨[⟨"5", "♠"⟩, ⟨"6", "♠"⟩, ⟨"10", "♠"⟩]⟩ 100 10)
          ⟨1, []⟩ 100 10]⟩ := by
    rw [playerTurnLoop_hit_continue id SimpleStrategy 1 ⟨"2", "♠"⟩ 100 5
      ⟨[⟨"5", "♠"⟩, ⟨"6", "♠"⟩]⟩ 10 ⟨1, [⟨"10", "♠"⟩]⟩ [] rfl ⟨"10", "♠"⟩
      ⟨1, []⟩ rfl (by decide)]
    exact hok₁
  exact h id SimpleStrategy 1 ⟨"2", "♠"⟩ 100 (5 + 1)
    ⟨[⟨"5", "♠"⟩, ⟨"6", "♠"⟩]⟩ 10 ⟨1, [⟨"10", "♠"⟩]⟩ _ hok
    (mkTurnSnapshot 1 ⟨[⟨"5", "♠"⟩, ⟨"6", "♠"⟩, ⟨"10", "♠"⟩]⟩ ⟨"2", "♠"⟩
      (turnAllowedActions ⟨[⟨"5", "♠"⟩, ⟨"6", "♠"⟩, ⟨"10", "♠"⟩]⟩ 100 10)
      ⟨1, []⟩ 100 10)
    (by simp) (by exact ⟨by decide, by decide⟩)

theorem length_add_card (h : Hand) (c : Card) :
    (h.add_card c).cards.length = h.cards.length + 1 := by
  simp [Hand.add_card]

theorem is_blackjack_eq_false_of_length_ne_two (h : Hand)
    (hlen : h.cards.length ≠ 2) : h.is_blackjack = false := by
  rw [Hand.is_blackjack]
  exact decide_eq_false fun hc => hlen hc.1

/-- **C3 amended.** After a hit the turn ends exactly when the new hand is
bust: if the hit leaves the hand non-bust the loop continues and the
strategy is queried again, even when the best value is now exactly 21 (the
engine's 21 check requires a two-card blackjack, which is impossible after
a hit). -/
theorem hit_ends_turn_iff_bust (shuffle : List Card → List Card)
    (strategy : Strategy) (rn : ℕ) (upcard : Card) (bankroll : ℚ)
    (fuel : ℕ) (hand : Hand) (bet : ℚ) (shoe : Shoe)
    (acc : List RoundSnapshot) (hlen : 2 ≤ hand.cards.length)
    (hdec : strategy.decide (mkTurnSnapshot rn hand upcard
        (turnAllowedActions hand bankroll bet) shoe bankroll bet) = "hit")
    (card : Card) (shoe' : Shoe)
    (hdraw : Shoe.draw shuffle shoe = (some card, shoe')) :
    ((hand.add_card card).is_bust = true →
      playerTurnLoop shuffle strategy rn upcard bankroll (fuel + 1) hand bet
          shoe acc =
        .ok ⟨hand.add_card card, bet, shoe', acc ++ [mkTurnSnapshot rn hand
          upcard (turnAllowedActions hand bankroll bet) shoe bankroll bet]⟩) ∧
    ((hand.add_card card).is_bust = false →
      playerTurnLoop shuffle strategy rn upcard bankroll (fuel + 1) hand bet
          shoe acc =
        playerTurnLoop shuffle strategy rn upcard bankroll fuel
          (hand.add_card card) bet shoe'
          (acc ++ [mkTurnSnapshot rn hand upcard
            (turnAllowedActions hand bankroll bet) shoe bankroll bet])) := by
  constructor
  · intro hbust
    exact playerTurnLoop_hit_end shuffle strategy rn upcard bankroll fuel hand
      bet shoe acc hdec card shoe' hdraw (Or.inl hbust)
  · intro hnotbust
    have hbj : (hand.add_card card).is_blackjack = false := by
      refine is_blackjack_eq_false_of_length_ne_two _ ?_
      rw [length_add_card]
      omega
    refine playerTurnLoop_hit_continue shuffle strategy rn upcard bankroll fuel
      hand bet shoe acc hdec card shoe' hdraw ?_
    rintro (hc | hc)
    · rw [hnotbust] at hc
      cases hc
    · rw [hbj] at hc
      cases hc

/-- Witness for the amended C3: hitting 5♠ 6♠ into a 10♠ (best value 21,
not bust) continues the loop with the three-card hand. -/
theorem hit_ends_turn_iff_bust_witness :
    playerTurnLoop id SimpleStrategy 1 ⟨"2", "♠"⟩ 100 (5 + 1)
        ⟨[⟨"5", "♠"⟩, ⟨"6", "♠"⟩]⟩ 10 ⟨1, [⟨"10", "♠"⟩]⟩ [] =
      playerTurnLoop id SimpleStrategy 1 ⟨"2", "♠"⟩ 100 5
        ⟨[⟨"5", "♠"⟩, ⟨"6", "♠"⟩, ⟨"10", "♠"⟩]⟩ 10 ⟨1, []⟩
        [mkTurnSnapshot 1 ⟨[⟨"5", "♠"⟩, ⟨"6", "♠"⟩]⟩ ⟨"2", "♠"⟩
          (turnAllowedActions ⟨[⟨"5", "♠"⟩, ⟨"6", "♠"⟩]⟩ 100 10)
          ⟨1, [⟨"10", "♠"⟩]⟩ 100 10] := by
  have h := (hit_ends_turn_iff_bust id SimpleStrategy 1 ⟨"2", "♠"⟩ 100 5
    ⟨[⟨"5", "♠"⟩, ⟨"6", "♠"⟩]⟩ 10 ⟨1, [⟨"10", "♠"⟩]⟩ [] (by decide)
    rfl ⟨"10", "♠"⟩ ⟨1, []⟩ rfl).2 (by decide)
  exact h

/-! ## Association-list and `Forall₂` helpers -/

theorem dictGet?_insert_self {α : Type} (k : String) (v : α) :
    ∀ (d : List (String × α)), dictGet? k (dictInsert k v d) = some v
  | [] => by simp [dictInsert, dictGet?]
  | (k₀, v₀) :: rest => by
    by_cases h : k₀ = k
    · simp [dictInsert, dictGet?, h]
    · simp only [dictInsert, dictGet?, if_neg h]
      exact dictGet?_insert_self k v rest

theorem dictGet?_insert_ne {α : Type} {k' k : String} (h : k' ≠ k) (v : α) :
    ∀ (d : List (String × α)), dictGet? k' (dictInsert k v d) = dictGet? k' d
  | [] => by
    simp only [dictInsert, dictGet?]
    rw [if_neg (fun hc => h hc.symm)]
  | (k₀, v₀) :: rest => by
    by_cases hk : k₀ = k
    · subst hk
      simp only [dictInsert, if_pos rfl, dictGet?]
      rw [if_neg (fun hc => h hc.symm), if_neg (fun hc => h hc.symm)]
    · simp only [dictInsert, if_neg hk, dictGet?]
      by_cases hk' : k₀ = k'
      · rw [if_pos hk', if_pos hk']
      · rw [if_neg hk', if_neg hk']
        exact dictGet?_insert_ne h v rest

theorem forall₂_imp_mem {α β : Type} {R S : α → β → Prop} :
    ∀ {l1 : List α} {l2 : List β}, List.Forall₂ R l1 l2 →
      (∀ a ∈ l1, ∀ b, R a b → S a b) → List.Forall₂ S l1 l2 := by
  intro l1 l2 h
  induction h with
  | nil => intro _; exact .nil
  | cons hR _ ih =>
    intro himp
    exact .cons (himp _ (List.mem_cons_self _ _) _ hR)
      (ih fun a ha b hr => himp a (List.mem_cons_of_mem _ ha) b hr)

theorem forall₂_mem_right {α β : Type} {R : α → β → Prop} :
    ∀ {l1 : List α} {l2 : List β}, List.Forall₂ R l1 l2 →
      ∀ {b}, b ∈ l2 → ∃ a ∈ l1, R a b := by
  intro l1 l2 h
  induction h with
  | nil => intro b hb; exact absurd hb (List.not_mem_nil b)
  | cons hR _ ih =>
    intro b hb
    rcases List.mem_cons.1 hb with rfl | hb
    · exact ⟨_, List.mem_cons_self _ _, hR⟩
    · obtain ⟨a, ha, hr⟩ := ih hb
      exact ⟨a, List.mem_cons_of_mem _ ha, hr⟩

theorem forall₂_mem_left {α β : Type} {R : α → β → Prop} :
    ∀ {l1 : List α} {l2 : List β}, List.Forall₂ R l1 l2 →
      ∀ {a}, a ∈ l1 → ∃ b ∈ l2, R a b := by
  intro l1 l2 h
  induction h with
  | nil => intro a ha; exact absurd ha (List.not_mem_nil a)
  | cons hR _ ih =>
    intro a ha
    rcases List.mem_cons.1 ha with rfl | ha
    · exact ⟨_, List.mem_cons_self _ _, hR⟩
    · obtain ⟨b, hb, hr⟩ := ih ha
      exact ⟨b, List.mem_cons_of_mem _ hb, hr⟩

theorem dictGet?_forall₂ {α : Type} {Q : α → α → Prop} :
    ∀ {l l' : List (String × α)},
      List.Forall₂ (fun a b => b.1 = a.1 ∧ Q a.2 b.2) l l' →
      ∀ {k v}, dictGet? k l = some v → ∃ v', dictGet? k l' = some v' ∧ Q v v' := by
  intro l l' h
  induction h with
  | nil => intro k v hv; cases hv
  | @cons a b l₁ l₂ hR _ ih =>
    intro k v hv
    obtain ⟨hkey, hq⟩ := hR
    rw [dictGet?] at hv
    by_cases hk : a.1 = k
    · rw [if_pos hk] at hv
      cases hv
      refine ⟨b.2, ?_, hq⟩
      obtain ⟨b1, b2⟩ := b
      simp only at hkey
      simp only [dictGet?]
      rw [hkey, if_pos hk]
    · rw [if_neg hk] at hv
      obtain ⟨v', hv', hq'⟩ := ih hv
      refine ⟨v', ?_, hq'⟩
      obtain ⟨b1, b2⟩ := b
      simp only at hkey
      simp only [dictGet?]
      rw [hkey, if_neg hk]
      exact hv'

/-! ## Boolean-to-spec bridges for hand predicates -/

theorem is_bust_iff (h : Hand) : h.is_bust = true ↔ 21 < h.best_value := by
  simp [Hand.is_bust]

theorem is_blackjack_iff (h : Hand) :
    h.is_blackjack = true ↔ (h.cards.length = 2 ∧ h.best_value = 21) := by
  simp [Hand.is_blackjack]

/-! ## The outcome decision table, spec side (claim C2)

Written from the specification's priority order over the final hands:
player bust, then player natural vs dealer non-natural, then dealer bust,
then dealer natural vs player non-natural, then total comparison. -/

/-- The spec's resolution table: `OutcomeSpec player dealer bet outcome
payout` holds when `(outcome, payout)` is what the priority order
prescribes for the two final hands and the final bet. -/
def OutcomeSpec (player dealer : Hand) (bet : ℚ) (outcome : String)
    (payout : ℚ) : Prop :=
  let pt := player.best_value
  let dt := dealer.best_value
  let pbj := player.cards.length = 2 ∧ pt = 21
  let dbj := dealer.cards.length = 2 ∧ dt = 21
  if 21 < pt then outcome = "lose" ∧ payout = -bet
  else if pbj ∧ ¬dbj then outcome = "blackjack" ∧ payout = 3 / 2 * bet
  else if 21 < dt then outcome = "win" ∧ payout = bet
  else if dbj ∧ ¬pbj then outcome = "lose" ∧ payout = -bet
  else if dt < pt then outcome = "win" ∧ payout = bet
  else if pt < dt then outcome = "lose" ∧ payout = -bet
  else outcome = "push" ∧ payout = 0

theorem resolveOutcome_spec (player dealer : Hand) (bet : ℚ) :
    OutcomeSpec player dealer bet (resolveOutcome player dealer bet).1
      (resolveOutcome player dealer bet).2 := by
  simp only [resolveOutcome, OutcomeSpec, is_bust_iff, is_blackjack_iff,
    decide_eq_true_eq, gt_iff_lt]
  split_ifs <;> refine ⟨rfl, ?_⟩ <;> ring

theorem resolveOutcome_payout_ge (player dealer : Hand) {bet : ℚ}
    (hbet : 0 ≤ bet) : -bet ≤ (resolveOutcome player dealer bet).2 := by
  simp only [resolveOutcome]
  split_ifs <;> simp <;> linarith

/-! ## Per-phase characterisations of `play_round` -/

theorem buildStates_preserves :
    ∀ (ps : List PlayerConfig) (d : List (String × RoundPlayerState))
      (k : String), k ∉ ps.map PlayerConfig.name →
      dictGet? k (buildStates ps d) = dictGet? k d
  | [], d, k, _ => rfl
  | p :: rest, d, k, hk => by
    simp only [List.map_cons, List.mem_cons, not_or] at hk
    rw [buildStates, buildStates_preserves rest _ k hk.2,
      dictGet?_insert_ne hk.1]

theorem dictGet?_buildStates :
    ∀ (ps : List PlayerConfig) (d : List (String × RoundPlayerState))
      (p : PlayerConfig), p ∈ ps → (ps.map PlayerConfig.name).Nodup →
      dictGet? p.name (buildStates ps d) =
        some ⟨p, ⟨[]⟩, p.bet_amount⟩
  | [], _, p, hp, _ => absurd hp (List.not_mem_nil p)
  | q :: rest, d, p, hp, hnodup => by
    simp only [List.map_cons, List.nodup_cons] at hnodup
    rcases List.mem_cons.1 hp with rfl | hp
    · rw [buildStates, buildStates_preserves rest _ p.name hnodup.1,
        dictGet?_insert_self]
    · exact dictGet?_buildStates rest _ p hp hnodup.2

/-- Dealing one card to every seated player preserves keys, configs and
bets (only the hands change, each gaining one card). -/
theorem dealToStates_spec (shuffle : List Card → List Card) :
    ∀ (states : List (String × RoundPlayerState)) (shoe : Shoe)
      (states' : List (String × RoundPlayerState)) (shoe' : Shoe),
      dealToStates shuffle states shoe = .ok (states', shoe') →
      List.Forall₂ (fun a b => b.1 = a.1 ∧
        (b.2.config = a.2.config ∧ b.2.bet = a.2.bet)) states states'
  | [], shoe, states', shoe', hok => by
    cases hok
    exact .nil
  | (k, st) :: rest, shoe, states', shoe', hok => by
    rw [dealToStates] at hok
    rcases hdraw : Shoe.draw shuffle shoe with ⟨c?, shoe₁⟩
    rw [hdraw] at hok
    rcases c? with _ | card
    · cases hok
    · simp only at hok
      rcases hrest : dealToStates shuffle rest shoe₁ with e | ⟨rest', shoe₂⟩
      · rw [hrest] at hok
        cases hok
      · rw [hrest] at hok
        cases hok
        exact .cons ⟨rfl, rfl, rfl⟩ (dealToStates_spec shuffle rest shoe₁ _ _ hrest)

/-- A full deal pass relates states as `dealToStates` does. -/
theorem dealPass_spec (shuffle : List Card → List Card)
    (states : List (String × RoundPlayerState)) (dealer_hand : Hand)
    (shoe : Shoe) (states' : List (String × RoundPlayerState))
    (dealer_hand' : Hand) (shoe' : Shoe)
    (hok : dealPass shuffle states dealer_hand shoe =
      .ok (states', dealer_hand', shoe')) :
    List.Forall₂ (fun a b => b.1 = a.1 ∧
      (b.2.config = a.2.config ∧ b.2.bet = a.2.bet)) states states' := by
  rw [dealPass] at hok
  rcases hdeal : dealToStates shuffle states shoe with e | ⟨states₁, shoe₁⟩
  · rw [hdeal] at hok
    cases hok
  · rw [hdeal] at hok
    simp only at hok
    rcases hdraw : Shoe.draw shuffle shoe₁ with ⟨c?, shoe₂⟩
    rw [hdraw] at hok
    rcases c? with _ | card
    · cases hok
    · simp only at hok
      cases hok
      exact dealToStates_spec shuffle states shoe _ _ hdeal

/-- `playerTurn` never changes the player's config, and changes the bet
only by a legal double. -/
theorem playerTurn_bet (shuffle : List Card → List Card)
    (fuel rn : ℕ) (upcard : Card) (player : PlayerConfig)
    (state : RoundPlayerState) (shoe : Shoe) (out : PlayerTurnOutcome)
    (hok : playerTurn shuffle fuel rn upcard player state shoe = .ok out) :
    out.state.config = state.config ∧
    (out.state.bet = state.bet ∨
      (out.state.bet = state.bet * 2 ∧ player.bankroll ≥ state.bet * 2)) := by
  rw [playerTurn] at hok
  by_cases hbj : state.hand.is_blackjack = true
  · rw [hbj] at hok
    rw [if_pos rfl] at hok
    cases hok
    exact ⟨rfl, Or.inl rfl⟩
  · rw [if_neg hbj] at hok
    rcases hloop : playerTurnLoop shuffle player.strategy rn upcard
        player.bankroll fuel state.hand state.bet shoe [] with e | r
    · rw [hloop] at hok
      cases hok
    · rw [hloop] at hok
      cases hok
      exact ⟨rfl, playerTurnLoop_bet shuffle player.strategy rn upcard
        player.bankroll fuel state.hand state.bet shoe [] r hloop⟩

/-- The natural-blackjack short-circuit of `playerTurn`: no decision loop,
state unchanged, and the only event is the `on_round_start` call. -/
theorem playerTurn_blackjack (shuffle : List Card → List Card)
    (fuel rn : ℕ) (upcard : Card) (player : PlayerConfig)
    (state : RoundPlayerState) (shoe : Shoe)
    (hbj : state.hand.is_blackjack = true) :
    playerTurn shuffle fuel rn upcard player state shoe =
      .ok ⟨state, shoe, [.roundStart ⟨rn, state.hand, upcard,
        ["hit", "stand"], shoe.cards_remaining, player.bankroll,
        state.bet⟩]⟩ := by
  rw [playerTurn, hbj]
  rw [if_pos rfl]

/-- The non-blackjack branch of `playerTurn` runs the decision loop and
reports the `on_round_start` call followed by one `decide` call per
recorded snapshot. -/
theorem playerTurn_loop_eq (shuffle : List Card → List Card)
    (fuel rn : ℕ) (upcard : Card) (player : PlayerConfig)
    (state : RoundPlayerState) (shoe : Shoe)
    (hbj : state.hand.is_blackjack = false) (r : TurnResult)
    (hloop : playerTurnLoop shuffle player.strategy rn upcard player.bankroll
      fuel state.hand state.bet shoe [] = .ok r) :
    playerTurn shuffle fuel rn upcard player state shoe =
      .ok ⟨{ state with hand := r.hand, bet := r.bet }, r.shoe,
        .roundStart ⟨rn, state.hand, upcard, ["hit", "stand"],
          shoe.cards_remaining, player.bankroll, state.bet⟩ ::
          r.decideSnapshots.map fun s =>
            .decideCall s (player.strategy.decide s)⟩ := by
  rw [playerTurn]
  rw [if_neg (by rw [hbj]; simp), hloop]

theorem playerTurnsPhase_preserves (shuffle : List Card → List Card)
    (fuel rn : ℕ) (upcard : Card) :
    ∀ (ps : List PlayerConfig) (states : List (String × RoundPlayerState))
      (shoe : Shoe) (states' : List (String × RoundPlayerState))
      (shoe' : Shoe) (traces : List (String × List StrategyEvent)),
      playerTurnsPhase shuffle fuel rn upcard ps states shoe =
        .ok (states', shoe', traces) →
      ∀ k, k ∉ ps.map PlayerConfig.name →
        dictGet? k states' = dictGet? k states
  | [], states, shoe, states', shoe', traces, hok, k, _ => by
    cases hok
    rfl
  | p :: rest, states, shoe, states', shoe', traces, hok, k, hk => by
    simp only [List.map_cons, List.mem_cons, not_or] at hk
    rw [playerTurnsPhase] at hok
    rcases hst : dictGet? p.name states with _ | state
    · rw [hst] at hok
      cases hok
    · rw [hst] at hok
      simp only at hok
      rcases hturn : playerTurn shuffle fuel rn upcard p state shoe
        with e | out
      · rw [hturn] at hok
        cases hok
      · rw [hturn] at hok
        simp only at hok
        rcases hrec : playerTurnsPhase shuffle fuel rn upcard rest
            (dictInsert p.name out.state states) out.shoe
          with e | ⟨states₁, shoe₁, traces₁⟩
        · rw [hrec] at hok
          cases hok
        · rw [hrec] at hok
          cases hok
          rw [playerTurnsPhase_preserves shuffle fuel rn upcard rest _ _ _ _ _
            hrec k hk.2]
          exact dictGet?_insert_ne hk.1 out.state states

/-- Master characterisation of the player-turns phase: with distinct
names, each active player's state is looked up, run through `playerTurn`
on some intermediate shoe, and written back; the phase's traces are the
per-player turn events, in order. -/
theorem playerTurnsPhase_spec (shuffle : List Card → List Card)
    (fuel rn : ℕ) (upcard : Card) :
    ∀ (ps : List PlayerConfig) (states : List (String × RoundPlayerState))
      (shoe : Shoe) (states' : List (String × RoundPlayerState))
      (shoe' : Shoe) (traces : List (String × List StrategyEvent)),
      playerTurnsPhase shuffle fuel rn upcard ps states shoe =
        .ok (states', shoe', traces) →
      (ps.map PlayerConfig.name).Nodup →
      List.Forall₂ (fun p (tr : String × List StrategyEvent) =>
        tr.1 = p.name ∧
        ∃ st₀ out sIn,
          dictGet? p.name states = some st₀ ∧
          playerTurn shuffle fuel rn upcard p st₀ sIn = .ok out ∧
          dictGet? p.name states' = some out.state ∧
          tr.2 = out.events) ps traces
  | [], states, shoe, states', shoe', traces, hok, _ => by
    cases hok
    exact .nil
  | p :: rest, states, shoe, states', shoe', traces, hok, hnodup => by
    simp only [List.map_cons, List.nodup_cons] at hnodup
    rw [playerTurnsPhase] at hok
    rcases hst : dictGet? p.name states with _ | state
    · rw [hst] at hok
      cases hok
    · rw [hst] at hok
      simp only at hok
      rcases hturn : playerTurn shuffle fuel rn upcard p state shoe
        with e | out
      · rw [hturn] at hok
        cases hok
      · rw [hturn] at hok
        simp only at hok
        rcases hrec : playerTurnsPhase shuffle fuel rn upcard rest
            (dictInsert p.name out.state states) out.shoe
          with e | ⟨states₁, shoe₁, traces₁⟩
        · rw [hrec] at hok
          cases hok
        · rw [hrec] at hok
          cases hok
          refine .cons ⟨rfl, state, out, shoe, hst, hturn, ?_, rfl⟩ ?_
          · rw [playerTurnsPhase_preserves shuffle fuel rn upcard rest _ _ _ _ _
              hrec p.name hnodup.1]
            exact dictGet?_insert_self p.name out.state states
          · have ih := playerTurnsPhase_spec shuffle fuel rn upcard rest
              (dictInsert p.name out.state states) out.shoe _ _ _ hrec
              hnodup.2
            refine forall₂_imp_mem ih ?_
            rintro q hq tr ⟨htr1, st₀, out₀, sIn, hget, hturn₀, hget', htr2⟩
            have hne : q.name ≠ p.name := by
              intro he
              exact hnodup.1 (he ▸ List.mem_map_of_mem PlayerConfig.name hq)
            rw [dictGet?_insert_ne hne] at hget
            exact ⟨htr1, st₀, out₀, sIn, hget, hturn₀, hget', htr2⟩

/-- Master characterisation of the resolution phase: each active player's
final state is looked up and resolved against the final dealer hand; the
config's bankroll is adjusted by the payout, and the `on_round_end`
snapshot carries the already-updated bankroll. -/
theorem resolvePhase_spec (rn : ℕ) (upcard : Card) (dealer_hand : Hand)
    (shoe : Shoe) :
    ∀ (ps : List PlayerConfig) (states : List (String × RoundPlayerState))
      (rs : List PlayerResolution),
      resolvePhase rn upcard dealer_hand shoe ps states = .ok rs →
      List.Forall₂ (fun p (r : PlayerResolution) =>
        ∃ st, dictGet? p.name states = some st ∧
          r.config = p.adjust_bankroll
            (resolveOutcome st.hand dealer_hand st.bet).2 ∧
          r.result = ⟨p.name, (resolveOutcome st.hand dealer_hand st.bet).1,
            (resolveOutcome st.hand dealer_hand st.bet).2,
            st.hand.best_value, dealer_hand.best_value,
            st.hand.is_blackjack⟩ ∧
          r.trace = (p.name, [.roundEnd ⟨rn, st.hand, upcard, [],
            shoe.cards_remaining,
            (p.adjust_bankroll
              (resolveOutcome st.hand dealer_hand st.bet).2).bankroll,
            st.bet⟩ (resolveOutcome st.hand dealer_hand st.bet).1
            (resolveOutcome st.hand dealer_hand st.bet).2])) ps rs
  | [], states, rs, hok => by
    cases hok
    exact .nil
  | p :: rest, states, rs, hok => by
    rw [resolvePhase] at hok
    rcases hst : dictGet? p.name states with _ | state
    · rw [hst] at hok
      cases hok
    · rw [hst] at hok
      simp only at hok
      rcases hro : resolveOutcome state.hand dealer_hand state.bet
        with ⟨outcome, payout⟩
      rw [hro] at hok
      simp only at hok
      rcases hrec : resolvePhase rn upcard dealer_hand shoe rest states
        with e | rs₁
      · rw [hrec] at hok
        cases hok
      · rw [hrec] at hok
        cases hok
        refine .cons ⟨state, hst, ?_, ?_, ?_⟩
          (resolvePhase_spec rn upcard dealer_hand shoe rest states rs₁ hrec)
        · rw [hro]
        · rw [hro]
        · rw [hro]

/-- `mergeTraces` of two per-player aligned trace lists is aligned with
the players, concatenating the two event lists. -/
theorem mergeTraces_forall₂ {R1 R2 :
    PlayerConfig → String × List StrategyEvent → Prop} :
    ∀ {l : List PlayerConfig} {t1 t2 : List (String × List StrategyEvent)},
      List.Forall₂ R1 l t1 → List.Forall₂ R2 l t2 →
      List.Forall₂ (fun p (tr : String × List StrategyEvent) =>
        ∃ n1 es1 n2 es2, R1 p (n1, es1) ∧ R2 p (n2, es2) ∧
          tr = (n1, es1 ++ es2)) l (mergeTraces t1 t2) := by
  intro l t1 t2 h1
  induction h1 generalizing t2 with
  | nil =>
    intro h2
    cases h2
    exact .nil
  | @cons p tr₁ ps trs₁ hR1 _ ih =>
    intro h2
    cases h2 with
    | cons hR2 hF2 =>
      rename_i tr₂ trs₂
      obtain ⟨n1, es1⟩ := tr₁
      obtain ⟨n2, es2⟩ := tr₂
      exact .cons ⟨n1, es1, n2, es2, hR1, hR2, rfl⟩ (ih hF2)

/-- Pointwise property of `mergePlayers`: if the updated configs for the
active players all satisfy `P` and the skipped players do too, every
player after the merge does. -/
theorem mergePlayers_forall (P : PlayerConfig → Prop) :
    ∀ (players : List PlayerConfig) (cfgs : List PlayerConfig),
      List.Forall₂ (fun _ c => P c)
        (players.filter PlayerConfig.can_place_bet) cfgs →
      (∀ p ∈ players, p.can_place_bet = false → P p) →
      ∀ q ∈ mergePlayers players cfgs, P q
  | [], cfgs, _, _, q, hq => absurd hq (List.not_mem_nil q)
  | p :: rest, cfgs, hF, hskip, q, hq => by
    by_cases hcan : p.can_place_bet = true
    · rw [List.filter_cons_of_pos hcan] at hF
      cases hF with
      | cons hR hF' =>
        rename_i c cs
        simp only [mergePlayers] at hq
        rw [if_pos hcan] at hq
        rcases List.mem_cons.1 hq with rfl | hq
        · exact hR
        · exact mergePlayers_forall P rest cs hF'
            (fun p' hp' h' => hskip p' (List.mem_cons_of_mem _ hp') h') q hq
    · have hcan' : p.can_place_bet = false := by
        rw [Bool.not_eq_true] at hcan
        exact hcan
      rw [List.filter_cons_of_neg (by rw [hcan']; simp)] at hF
      simp only [mergePlayers] at hq
      rw [if_neg (by rw [hcan']; simp)] at hq
      rcases List.mem_cons.1 hq with rfl | hq
      · exact hskip q (List.mem_cons_self q rest) hcan'
      · exact mergePlayers_forall P rest cfgs hF
          (fun p' hp' h' => hskip p' (List.mem_cons_of_mem _ hp') h') q hq

/-- Destructuring a successful `play_round` into its phase pipeline. -/
theorem play_round_ok_elim (shuffle : List Card → List Card) (fuel : ℕ)
    (g : BlackjackGame) (out : RoundOutput)
    (hok : play_round shuffle fuel g = .ok out) :
    (g.players.filter PlayerConfig.can_place_bet = [] ∧
      out = ⟨{ g with round_number := g.round_number + 1 },
        (g.players.filter fun p => ¬ p.can_place_bet).map skipResult, []⟩) ∨
    (∃ states1 dh1 shoe1 states2 dh2 shoe2 upcard states3 shoe3 turnTraces
        dh3 shoe4 rs,
      dealPass shuffle
          (buildStates (g.players.filter PlayerConfig.can_place_bet) [])
          ⟨[]⟩ g.shoe = .ok (states1, dh1, shoe1) ∧
      dealPass shuffle states1 dh1 shoe1 = .ok (states2, dh2, shoe2) ∧
      dh2.cards.head? = some upcard ∧
      playerTurnsPhase shuffle fuel (g.round_number + 1) upcard
          (g.players.filter PlayerConfig.can_place_bet) states2 shoe2 =
        .ok (states3, shoe3, turnTraces) ∧
      dealerTurn shuffle g.dealer_hits_soft_17 fuel dh2 shoe3 =
        .ok (dh3, shoe4) ∧
      resolvePhase (g.round_number + 1) upcard dh3 shoe4
          (g.players.filter PlayerConfig.can_place_bet) states3 = .ok rs ∧
      out = ⟨⟨mergePlayers g.players (rs.map PlayerResolution.config),
          g.dealer_hits_soft_17, shoe4, g.round_number + 1⟩,
        (g.players.filter fun p => ¬ p.can_place_bet).map skipResult ++
          rs.map PlayerResolution.result,
        mergeTraces turnTraces (rs.map PlayerResolution.trace)⟩) := by
  simp only [play_round] at hok
  by_cases hact : (g.players.filter PlayerConfig.can_place_bet).isEmpty = true
  · rw [if_pos hact] at hok
    left
    exact ⟨List.isEmpty_iff.1 hact, (Except.ok.inj hok).symm⟩
  · rw [if_neg hact] at hok
    right
    rcases h1 : dealPass shuffle
        (buildStates (g.players.filter PlayerConfig.can_place_bet) [])
        ⟨[]⟩ g.shoe with e | ⟨states1, dh1, shoe1⟩
    · rw [h1] at hok
      cases hok
    · rw [h1] at hok
      simp only at hok
      rcases h2 : dealPass shuffle states1 dh1 shoe1
        with e | ⟨states2, dh2, shoe2⟩
      · rw [h2] at hok
        cases hok
      · rw [h2] at hok
        simp only at hok
        rcases hup : dh2.cards.head? with _ | upcard
        · rw [hup] at hok
          cases hok
        · rw [hup] at hok
          simp only at hok
          rcases h3 : playerTurnsPhase shuffle fuel (g.round_number + 1)
              upcard (g.players.filter PlayerConfig.can_place_bet) states2
              shoe2 with e | ⟨states3, shoe3, turnTraces⟩
          · rw [h3] at hok
            cases hok
          · rw [h3] at hok
            simp only at hok
            rcases h4 : dealerTurn shuffle g.dealer_hits_soft_17 fuel dh2
              shoe3 with e | ⟨dh3, shoe4⟩
            · rw [h4] at hok
              cases hok
            · rw [h4] at hok
              simp only at hok
              rcases h5 : resolvePhase (g.round_number + 1) upcard dh3 shoe4
                  (g.players.filter PlayerConfig.can_place_bet) states3
                with e | rs
              · rw [h5] at hok
                cases hok
              · rw [h5] at hok
                simp only at hok
                exact ⟨states1, dh1, shoe1, states2, dh2, shoe2, upcard,
                  states3, shoe3, turnTraces, dh3, shoe4, rs, rfl, h2, hup,
                  h3, h4, h5, (Except.ok.inj hok).symm⟩

/-- Trace provenance for the player-turns phase: every trace entry is the
event list of some successful `playerTurn`. -/
theorem playerTurnsPhase_traces (shuffle : List Card → List Card)
    (fuel rn : ℕ) (upcard : Card) :
    ∀ (ps : List PlayerConfig) (states : List (String × RoundPlayerState))
      (shoe : Shoe) (states' : List (String × RoundPlayerState))
      (shoe' : Shoe) (traces : List (String × List StrategyEvent)),
      playerTurnsPhase shuffle fuel rn upcard ps states shoe =
        .ok (states', shoe', traces) →
      ∀ tr ∈ traces, ∃ p st sIn out,
        playerTurn shuffle fuel rn upcard p st sIn = .ok out ∧
        tr = (p.name, out.events)
  | [], states, shoe, states', shoe', traces, hok, tr, htr => by
    cases hok
    exact absurd htr (List.not_mem_nil tr)
  | p :: rest, states, shoe, states', shoe', traces, hok, tr, htr => by
    rw [playerTurnsPhase] at hok
    rcases hst : dictGet? p.name states with _ | state
    · rw [hst] at hok
      cases hok
    · rw [hst] at hok
      simp only at hok
      rcases hturn : playerTurn shuffle fuel rn upcard p state shoe
        with e | turnOut
      · rw [hturn] at hok
        cases hok
      · rw [hturn] at hok
        simp only at hok
        rcases hrec : playerTurnsPhase shuffle fuel rn upcard rest
            (dictInsert p.name turnOut.state states) turnOut.shoe
          with e | ⟨states₁, shoe₁, traces₁⟩
        · rw [hrec] at hok
          cases hok
        · rw [hrec] at hok
          cases hok
          rcases List.mem_cons.1 htr with rfl | htr
          · exact ⟨p, state, shoe, turnOut, hturn, rfl⟩
          · exact playerTurnsPhase_traces shuffle fuel rn upcard rest _ _ _ _ _
              hrec tr htr

/-- Event provenance through `mergeTraces`: every event of a merged trace
entry comes from one of the two sides. -/
theorem mergeTraces_event_mem :
    ∀ (A B : List (String × List StrategyEvent))
      (tr : String × List StrategyEvent), tr ∈ mergeTraces A B →
      ∀ e ∈ tr.2, (∃ a ∈ A, e ∈ a.2) ∨ (∃ b ∈ B, e ∈ b.2)
  | [], B, tr, htr, e, he => Or.inr ⟨tr, htr, he⟩
  | (n, es) :: rest, [], tr, htr, e, he => by
    rw [mergeTraces] at htr
    rcases List.mem_cons.1 htr with rfl | htr
    · exact Or.inl ⟨(n, es), List.mem_cons_self _ _, he⟩
    · rcases mergeTraces_event_mem rest [] tr htr e he with ⟨a, ha, hea⟩ | ⟨b, hb, _⟩
      · exact Or.inl ⟨a, List.mem_cons_of_mem _ ha, hea⟩
      · exact absurd hb (List.not_mem_nil b)
  | (n, es) :: rest, (n', es') :: rest', tr, htr, e, he => by
    rw [mergeTraces] at htr
    rcases List.mem_cons.1 htr with rfl | htr
    · rcases List.mem_append.1 he with h | h
      · exact Or.inl ⟨(n, es), List.mem_cons_self _ _, h⟩
      · exact Or.inr ⟨(n', es'), List.mem_cons_self _ _, h⟩
    · rcases mergeTraces_event_mem rest rest' tr htr e he with ⟨a, ha, hea⟩ | ⟨b, hb, heb⟩
      · exact Or.inl ⟨a, List.mem_cons_of_mem _ ha, hea⟩
      · exact Or.inr ⟨b, List.mem_cons_of_mem _ hb, heb⟩

/-- Every `decide` call a successful `playerTurn` reports received a
decision inside the snapshot's allowed actions. -/
theorem playerTurn_events_valid (shuffle : List Card → List Card)
    (fuel rn : ℕ) (upcard : Card) (player : PlayerConfig)
    (state : RoundPlayerState) (shoe : Shoe) (out : PlayerTurnOutcome)
    (hok : playerTurn shuffle fuel rn upcard player state shoe = .ok out) :
    ∀ snap d, StrategyEvent.decideCall snap d ∈ out.events →
      d ∈ snap.allowed_actions := by
  intro snap d hmem
  rw [playerTurn] at hok
  by_cases hbj : state.hand.is_blackjack = true
  · rw [hbj] at hok
    rw [if_pos rfl] at hok
    cases hok
    simp only [List.mem_singleton] at hmem
    cases hmem
  · rw [if_neg hbj] at hok
    rcases hloop : playerTurnLoop shuffle player.strategy rn upcard
        player.bankroll fuel state.hand state.bet shoe [] with e | r
    · rw [hloop] at hok
      cases hok
    · rw [hloop] at hok
      cases hok
      rcases List.mem_cons.1 hmem with h | h
      · cases h
      · rw [List.mem_map] at h
        obtain ⟨s, hs, hsd⟩ := h
        injection hsd with h1 h2
        subst h1
        subst h2
        rcases playerTurnLoop_snapshots shuffle player.strategy rn upcard
            player.bankroll fuel state.hand state.bet shoe [] r hloop _ hs
          with hc | ⟨_, _, hval⟩
        · exact absurd hc (List.not_mem_nil _)
        · exact hval

/-- **C7.** A strategy decision outside the snapshot's legal actions is a
fatal error raised at that decision point: the loop returns the
`ValueError` immediately (no coercion, no retry), and consequently in any
completed round every recorded `decide` call returned a member of its
snapshot's allowed actions. -/
theorem invalid_action_fatal (shuffle : List Card → List Card)
    (strategy : Strategy) (rn : ℕ) (upcard : Card) (bankroll : ℚ)
    (fuel : ℕ) (hand : Hand) (bet : ℚ) (shoe : Shoe)
    (acc : List RoundSnapshot) (g : BlackjackGame) (out : RoundOutput) :
    (strategy.decide (mkTurnSnapshot rn hand upcard
        (turnAllowedActions hand bankroll bet) shoe bankroll bet) ∉
      turnAllowedActions hand bankroll bet →
      playerTurnLoop shuffle strategy rn upcard bankroll (fuel + 1) hand bet
          shoe acc =
        .error ("Strategy " ++ strategy.name ++ " returned invalid action " ++
          strategy.decide (mkTurnSnapshot rn hand upcard
            (turnAllowedActions hand bankroll bet) shoe bankroll bet))) ∧
    (play_round shuffle fuel g = .ok out →
      ∀ tr ∈ out.traces, ∀ e ∈ tr.2, ∀ snap d,
        e = StrategyEvent.decideCall snap d → d ∈ snap.allowed_actions) := by
  constructor
  · intro hinv
    exact playerTurnLoop_invalid_action shuffle strategy rn upcard bankroll
      fuel hand bet shoe acc hinv
  · intro hok tr htr e he snap d hedc
    rcases play_round_ok_elim shuffle fuel g out hok with ⟨_, hout⟩ |
      ⟨states1, dh1, shoe1, states2, dh2, shoe2, upcard', states3, shoe3,
        turnTraces, dh3, shoe4, rs, _, _, _, h3, _, h5, hout⟩
    · rw [hout] at htr
      exact absurd htr (List.not_mem_nil tr)
    · rw [hout] at htr
      rcases mergeTraces_event_mem turnTraces (rs.map PlayerResolution.trace)
          tr htr e he with ⟨a, ha, hea⟩ | ⟨b, hb, heb⟩
      · obtain ⟨p, st, sIn, tOut, hturn, hatr⟩ :=
          playerTurnsPhase_traces shuffle fuel (g.round_number + 1) upcard'
            _ _ _ _ _ _ h3 a ha
        rw [hatr] at hea
        rw [hedc] at hea
        exact playerTurn_events_valid shuffle fuel (g.round_number + 1)
          upcard' p st sIn tOut hturn snap d hea
      · rw [List.mem_map] at hb
        obtain ⟨r, hr, hrb⟩ := hb
        obtain ⟨p, _, st, _, _, _, htrace⟩ :=
          forall₂_mem_right (resolvePhase_spec (g.round_number + 1) upcard'
            dh3 shoe4 _ _ _ h5) hr
        rw [← hrb, htrace] at heb
        rw [hedc] at heb
        simp only [List.mem_singleton] at heb
        cases heb

/-- Witness for C7: a strategy answering "split" on a three-card hand is
rejected with the fatal error, and the concrete natural-blackjack round
completes with every recorded decision legal. -/
theorem invalid_action_fatal_witness :
    (playerTurnLoop id ⟨"Bad", fun _ => "split"⟩ 1 ⟨"2", "♠"⟩ 100 (3 + 1)
        ⟨[⟨"5", "♠"⟩, ⟨"6", "♠"⟩, ⟨"2", "♥"⟩]⟩ 10 ⟨1, []⟩ [] =
      .error "Strategy Bad returned invalid action split") ∧
    (∀ tr ∈ (RoundOutput.mk
        ⟨[⟨"P", SimpleStrategy, 100 + 10 * (3 / 2), 10⟩], false, ⟨1, []⟩, 1⟩
        [⟨"P", "blackjack", 10 * (3 / 2), 21, 18, true⟩]
        [("P", [.roundStart ⟨1, ⟨[⟨"A", "♠"⟩, ⟨"K", "♥"⟩]⟩, ⟨"9", "♦"⟩,
            ["hit", "stand"], 0, 100, 10⟩,
          .roundEnd ⟨1, ⟨[⟨"A", "♠"⟩, ⟨"K", "♥"⟩]⟩, ⟨"9", "♦"⟩, [], 0,
            100 + 10 * (3 / 2), 10⟩ "blackjack" (10 * (3 / 2))])]).traces,
      ∀ e ∈ tr.2, ∀ snap d,
        e = StrategyEvent.decideCall snap d → d ∈ snap.allowed_actions) := by
  constructor
  · exact (invalid_action_fatal id ⟨"Bad", fun _ => "split"⟩ 1 ⟨"2", "♠"⟩ 100
      3 ⟨[⟨"5", "♠"⟩, ⟨"6", "♠"⟩, ⟨"2", "♥"⟩]⟩ 10 ⟨1, []⟩ []
      ⟨[], false, ⟨1, []⟩, 0⟩
      ⟨⟨[], false, ⟨1, []⟩, 1⟩, [], []⟩).1 (by decide)
  · exact (invalid_action_fatal id ⟨"Bad", fun _ => "split"⟩ 1 ⟨"2", "♠"⟩ 100
      3 ⟨[⟨"5", "♠"⟩, ⟨"6", "♠"⟩, ⟨"2", "♥"⟩]⟩ 10 ⟨1, []⟩ []
      ⟨[⟨"P", SimpleStrategy, 100, 10⟩], false,
        ⟨1, [⟨"9", "♣"⟩, ⟨"K", "♥"⟩, ⟨"9", "♦"⟩, ⟨"A", "♠"⟩]⟩, 0⟩ _).2 rfl

/-- Inversion for `playerTurn`: either the hand was a natural blackjack
(state unchanged, no decide calls) or the decision loop ran. -/
theorem playerTurn_cases (shuffle : List Card → List Card)
    (fuel rn : ℕ) (upcard : Card) (player : PlayerConfig)
    (state : RoundPlayerState) (shoe : Shoe) (out : PlayerTurnOutcome)
    (hok : playerTurn shuffle fuel rn upcard player state shoe = .ok out) :
    (state.hand.is_blackjack = true ∧
      out = ⟨state, shoe, [.roundStart ⟨rn, state.hand, upcard,
        ["hit", "stand"], shoe.cards_remaining, player.bankroll,
        state.bet⟩]⟩) ∨
    (state.hand.is_blackjack = false ∧ ∃ r,
      playerTurnLoop shuffle player.strategy rn upcard player.bankroll fuel
        state.hand state.bet shoe [] = .ok r ∧
      out = ⟨{ state with hand := r.hand, bet := r.bet }, r.shoe,
        .roundStart ⟨rn, state.hand, upcard, ["hit", "stand"],
          shoe.cards_remaining, player.bankroll, state.bet⟩ ::
          r.decideSnapshots.map fun s =>
            .decideCall s (player.strategy.decide s)⟩) := by
  rw [playerTurn] at hok
  by_cases hbj : state.hand.is_blackjack = true
  · rw [hbj] at hok
    rw [if_pos rfl] at hok
    exact Or.inl ⟨hbj, (Except.ok.inj hok).symm⟩
  · rw [if_neg hbj] at hok
    rcases hloop : playerTurnLoop shuffle player.strategy rn upcard
        player.bankroll fuel state.hand state.bet shoe [] with e | r
    · rw [hloop] at hok
      cases hok
    · rw [hloop] at hok
      exact Or.inr ⟨by simpa using hbj, r, rfl, (Except.ok.inj hok).symm⟩

/-- After the two deal passes, each active player's seat holds their own
config and their configured bet. -/
theorem states2_bet (shuffle : List Card → List Card) (g : BlackjackGame)
    {states1 : List (String × RoundPlayerState)} {dh1 : Hand} {shoe1 : Shoe}
    {states2 : List (String × RoundPlayerState)} {dh2 : Hand} {shoe2 : Shoe}
    (h1 : dealPass shuffle
      (buildStates (g.players.filter PlayerConfig.can_place_bet) [])
      ⟨[]⟩ g.shoe = .ok (states1, dh1, shoe1))
    (h2 : dealPass shuffle states1 dh1 shoe1 = .ok (states2, dh2, shoe2))
    (hnodupA : ((g.players.filter PlayerConfig.can_place_bet).map
      PlayerConfig.name).Nodup)
    {p : PlayerConfig}
    (hp : p ∈ g.players.filter PlayerConfig.can_place_bet) :
    ∃ st₂, dictGet? p.name states2 = some st₂ ∧
      st₂.bet = p.bet_amount ∧ st₂.config = p := by
  have h0 := dictGet?_buildStates
    (g.players.filter PlayerConfig.can_place_bet) [] p hp hnodupA
  obtain ⟨v1, hv1, hq1⟩ :=
    dictGet?_forall₂ (Q := fun v w => w.config = v.config ∧ w.bet = v.bet)
      (dealPass_spec shuffle _ _ _ _ _ _ h1) h0
  obtain ⟨v2, hv2, hq2⟩ :=
    dictGet?_forall₂ (Q := fun v w => w.config = v.config ∧ w.bet = v.bet)
      (dealPass_spec shuffle _ _ _ _ _ _ h2) hv1
  exact ⟨v2, hv2, by rw [hq2.2, hq1.2], by rw [hq2.1, hq1.1]⟩

theorem forall₂_exists_map {α β γ : Type} {R : α → β → Prop} {f : β → γ} :
    ∀ {l : List α} {rs : List β}, List.Forall₂ R l rs →
      List.Forall₂ (fun a c => ∃ r, R a r ∧ c = f r) l (rs.map f) := by
  intro l rs h
  induction h with
  | nil => exact .nil
  | cons hR _ ih => exact .cons ⟨_, hR, rfl⟩ ih

/-- **C5.** A player whose dealt two-card hand is a natural blackjack gets
no `decide` query that round: the strategy sees exactly `on_round_start`
followed by `on_round_end`, and the bet stands at the configured amount
throughout. -/
theorem natural_blackjack_skips_decide (shuffle : List Card → List Card)
    (fuel : ℕ) (g : BlackjackGame) (out : RoundOutput)
    (hnodup : (g.players.map PlayerConfig.name).Nodup)
    (hok : play_round shuffle fuel g = .ok out) :
    ∀ n es, (n, es) ∈ out.traces →
      ∀ snap, es.head? = some (.roundStart snap) →
        snap.hand.is_blackjack = true →
        ∃ snap' o pay, es = [.roundStart snap, .roundEnd snap' o pay] ∧
          snap'.bet_amount = snap.bet_amount ∧
          ∃ p ∈ g.players, p.name = n ∧ snap.bet_amount = p.bet_amount := by
  intro n es htr snap hhead hbjsnap
  rcases play_round_ok_elim shuffle fuel g out hok with ⟨_, hout⟩ |
    ⟨states1, dh1, shoe1, states2, dh2, shoe2, upcard', states3, shoe3,
      turnTraces, dh3, shoe4, rs, h1, h2, _, h3, _, h5, hout⟩
  · rw [hout] at htr
    exact absurd htr (List.not_mem_nil (n, es))
  · rw [hout] at htr
    have hnodupA : ((g.players.filter PlayerConfig.can_place_bet).map
        PlayerConfig.name).Nodup :=
      hnodup.sublist ((List.filter_sublist g.players).map PlayerConfig.name)
    have M1 := playerTurnsPhase_spec shuffle fuel (g.round_number + 1)
      upcard' _ _ _ _ _ _ h3 hnodupA
    have M2 := resolvePhase_spec (g.round_number + 1) upcard' dh3 shoe4 _ _ _
      h5
    have M2' := forall₂_exists_map (f := PlayerResolution.trace) M2
    have combined := mergeTraces_forall₂ M1 M2'
    obtain ⟨p, hp, n1, es1, n2, es2, hR1, hR2, hpair⟩ :=
      forall₂_mem_right combined htr
    obtain ⟨hn, hes⟩ : n = n1 ∧ es = es1 ++ es2 := by
      cases hpair
      exact ⟨rfl, rfl⟩
    obtain ⟨hn1, st₀, tOut, sIn, hget2, hturn, hget3, hes1⟩ := hR1
    replace hn1 : n1 = p.name := hn1
    replace hes1 : es1 = tOut.events := hes1
    obtain ⟨r, ⟨st, hget3', _, _, hrtrace⟩, htr2⟩ := hR2
    have hst : st = tOut.state := by
      have := hget3'.symm.trans hget3
      exact Option.some.inj this
    obtain ⟨hes2n, hes2⟩ : n2 = p.name ∧
        es2 = [.roundEnd ⟨g.round_number + 1, st.hand, upcard', [],
          shoe4.cards_remaining,
          (p.adjust_bankroll
            (resolveOutcome st.hand dh3 st.bet).2).bankroll, st.bet⟩
          (resolveOutcome st.hand dh3 st.bet).1
          (resolveOutcome st.hand dh3 st.bet).2] := by
      rw [hrtrace] at htr2
      cases htr2
      exact ⟨rfl, rfl⟩
    rcases playerTurn_cases shuffle fuel (g.round_number + 1) upcard' p st₀
        sIn tOut hturn with ⟨hbj0, houtT⟩ | ⟨hbj0, rLoop, _, houtT⟩
    · have hes1' : es1 = [.roundStart ⟨g.round_number + 1, st₀.hand, upcard',
          ["hit", "stand"], sIn.cards_remaining, p.bankroll, st₀.bet⟩] := by
        rw [hes1, houtT]
      have hsnapS : StrategyEvent.roundStart snap = .roundStart
          ⟨g.round_number + 1, st₀.hand, upcard', ["hit", "stand"],
            sIn.cards_remaining, p.bankroll, st₀.bet⟩ := by
        have : es.head? = some (.roundStart ⟨g.round_number + 1, st₀.hand,
            upcard', ["hit", "stand"], sIn.cards_remaining, p.bankroll,
            st₀.bet⟩) := by
          rw [hes, hes1']
          rfl
        have := hhead.symm.trans this
        exact Option.some.inj this
      have hsnap : snap = ⟨g.round_number + 1, st₀.hand, upcard',
          ["hit", "stand"], sIn.cards_remaining, p.bankroll, st₀.bet⟩ := by
        injection hsnapS
      obtain ⟨st₂, hst₂, hbet₂, _⟩ := states2_bet shuffle g h1 h2 hnodupA hp
      have hst₀ : st₀ = st₂ := Option.some.inj (hst₂.symm.trans hget2).symm
      refine ⟨⟨g.round_number + 1, st.hand, upcard', [],
          shoe4.cards_remaining,
          (p.adjust_bankroll (resolveOutcome st.hand dh3 st.bet).2).bankroll,
          st.bet⟩,
        (resolveOutcome st.hand dh3 st.bet).1,
        (resolveOutcome st.hand dh3 st.bet).2, ?_, ?_, p,
        (List.mem_filter.1 hp).1, (hn.trans hn1).symm, ?_⟩
      · rw [hes, hes1', hes2, hsnap]
        rfl
      · rw [hsnap, hst, houtT]
      · rw [hsnap]
        rw [hst₀, hbet₂]
    · exfalso
      have hes1' : es1.head? = some (.roundStart ⟨g.round_number + 1,
          st₀.hand, upcard', ["hit", "stand"], sIn.cards_remaining,
          p.bankroll, st₀.bet⟩) := by
        rw [hes1, houtT]
        rfl
      have hheadS : es.head? = some (.roundStart ⟨g.round_number + 1,
          st₀.hand, upcard', ["hit", "stand"], sIn.cards_remaining,
          p.bankroll, st₀.bet⟩) := by
        rw [hes]
        rcases hes1eq : es1 with _ | ⟨e₀, es1'⟩
        · rw [hes1eq] at hes1'
          cases hes1'
        · rw [hes1eq] at hes1'
          simp only [List.cons_append, List.head?_cons] at hes1' ⊢
          exact hes1'
      have := hhead.symm.trans hheadS
      have hsnap : snap = ⟨g.round_number + 1, st₀.hand, upcard',
          ["hit", "stand"], sIn.cards_remaining, p.bankroll, st₀.bet⟩ := by
        have h' := Option.some.inj this
        injection h'
      rw [hsnap] at hbjsnap
      simp only at hbjsnap
      rw [hbjsnap] at hbj0
      cases hbj0

/-- Witness for C5: in the concrete round where P is dealt A♠ K♥, the
trace is exactly round-start followed by round-end, with the bet still 10. -/
theorem natural_blackjack_skips_decide_witness :
    ∃ snap' o pay,
      [StrategyEvent.roundStart ⟨1, ⟨[⟨"A", "♠"⟩, ⟨"K", "♥"⟩]⟩, ⟨"9", "♦"⟩,
          ["hit", "stand"], 0, 100, 10⟩,
        StrategyEvent.roundEnd ⟨1, ⟨[⟨"A", "♠"⟩, ⟨"K", "♥"⟩]⟩, ⟨"9", "♦"⟩,
          [], 0, 100 + 10 * (3 / 2), 10⟩ "blackjack" (10 * (3 / 2))] =
        [.roundStart ⟨1, ⟨[⟨"A", "♠"⟩, ⟨"K", "♥"⟩]⟩, ⟨"9", "♦"⟩,
          ["hit", "stand"], 0, 100, 10⟩, .roundEnd snap' o pay] ∧
      snap'.bet_amount = (⟨1, ⟨[⟨"A", "♠"⟩, ⟨"K", "♥"⟩]⟩, ⟨"9", "♦"⟩,
        ["hit", "stand"], 0, 100, 10⟩ : RoundSnapshot).bet_amount ∧
      ∃ p ∈ [(⟨"P", SimpleStrategy, 100, 10⟩ : PlayerConfig)],
        p.name = "P" ∧
        (⟨1, ⟨[⟨"A", "♠"⟩, ⟨"K", "♥"⟩]⟩, ⟨"9", "♦"⟩, ["hit", "stand"], 0,
          100, 10⟩ : RoundSnapshot).bet_amount = p.bet_amount := by
  exact natural_blackjack_skips_decide id 8
    ⟨[⟨"P", SimpleStrategy, 100, 10⟩], false,
      ⟨1, [⟨"9", "♣"⟩, ⟨"K", "♥"⟩, ⟨"9", "♦"⟩, ⟨"A", "♠"⟩]⟩, 0⟩
    ⟨⟨[⟨"P", SimpleStrategy, 100 + 10 * (3 / 2), 10⟩], false, ⟨1, []⟩, 1⟩,
      [⟨"P", "blackjack", 10 * (3 / 2), 21, 18, true⟩],
      [("P", [.roundStart ⟨1, ⟨[⟨"A", "♠"⟩, ⟨"K", "♥"⟩]⟩, ⟨"9", "♦"⟩,
          ["hit", "stand"], 0, 100, 10⟩,
        .roundEnd ⟨1, ⟨[⟨"A", "♠"⟩, ⟨"K", "♥"⟩]⟩, ⟨"9", "♦"⟩, [], 0,
          100 + 10 * (3 / 2), 10⟩ "blackjack" (10 * (3 / 2))])]⟩
    (by decide) rfl "P" _ (List.mem_singleton.2 rfl) _ rfl (by decide)

theorem mergePlayers_nil :
    ∀ (players : List PlayerConfig), mergePlayers players [] = players
  | [] => rfl
  | p :: rest => by
    by_cases hcan : p.can_place_bet = true
    · simp only [mergePlayers]
      rw [if_pos hcan, mergePlayers_nil rest]
    · simp only [mergePlayers]
      rw [if_neg hcan, mergePlayers_nil rest]

theorem forall₂_zip_map {α β γ δ : Type} {R : α → β → Prop}
    {f : β → γ} {g : β → δ} :
    ∀ {l : List α} {rs : List β}, List.Forall₂ R l rs →
      List.Forall₂ (fun a b => ∃ r, R a r ∧ b = (f r, g r)) l
        ((rs.map f).zip (rs.map g)) := by
  intro l rs h
  induction h with
  | nil => exact .nil
  | cons hR _ ih => exact .cons ⟨_, hR, rfl⟩ ih

/-- **C2.** For every active player the round's result is determined by
the final hands in the spec's strict priority order (`OutcomeSpec`), with
the final bet equal to the placed bet or exactly its double; the player's
bankroll is increased by exactly the payout, and the `on_round_end`
notification carries the already-updated bankroll. -/
theorem round_resolution_spec (shuffle : List Card → List Card) (fuel : ℕ)
    (g : BlackjackGame) (out : RoundOutput)
    (hnodup : (g.players.map PlayerConfig.name).Nodup)
    (hok : play_round shuffle fuel g = .ok out) :
    ∃ (activeResults : List GameResult) (upd : List PlayerConfig)
      (dealer_hand : Hand),
      out.results =
        (g.players.filter fun p => ¬ p.can_place_bet).map skipResult ++
          activeResults ∧
      out.game.players = mergePlayers g.players upd ∧
      activeResults.length = upd.length ∧
      List.Forall₂ (fun (p : PlayerConfig) (ru : GameResult × PlayerConfig) =>
        ∃ (hand : Hand) (bet : ℚ),
          (bet = p.bet_amount ∨ bet = 2 * p.bet_amount) ∧
          ru.1.player_name = p.name ∧
          ru.1.player_total = hand.best_value ∧
          ru.1.dealer_total = dealer_hand.best_value ∧
          ru.1.is_blackjack = hand.is_blackjack ∧
          OutcomeSpec hand dealer_hand bet ru.1.outcome ru.1.payout ∧
          ru.2.bankroll = p.bankroll + ru.1.payout ∧
          ru.2.name = p.name ∧
          (∃ es, (p.name, es) ∈ out.traces ∧
            ∃ snap, StrategyEvent.roundEnd snap ru.1.outcome ru.1.payout ∈ es ∧
              snap.player_bankroll = p.bankroll + ru.1.payout))
        (g.players.filter PlayerConfig.can_place_bet)
        (activeResults.zip upd) := by
  rcases play_round_ok_elim shuffle fuel g out hok with ⟨hempty, hout⟩ |
    ⟨states1, dh1, shoe1, states2, dh2, shoe2, upcard', states3, shoe3,
      turnTraces, dh3, shoe4, rs, h1, h2, _, h3, _, h5, hout⟩
  · subst hout
    refine ⟨[], [], ⟨[]⟩, ?_, ?_, rfl, ?_⟩
    · rw [List.append_nil]
    · exact (mergePlayers_nil g.players).symm
    · rw [hempty]
      exact .nil
  · subst hout
    have hnodupA : ((g.players.filter PlayerConfig.can_place_bet).map
        PlayerConfig.name).Nodup :=
      hnodup.sublist ((List.filter_sublist g.players).map PlayerConfig.name)
    have M1 := playerTurnsPhase_spec shuffle fuel (g.round_number + 1)
      upcard' _ _ _ _ _ _ h3 hnodupA
    have M2 := resolvePhase_spec (g.round_number + 1) upcard' dh3 shoe4 _ _ _
      h5
    refine ⟨rs.map PlayerResolution.result, rs.map PlayerResolution.config,
      dh3, rfl, rfl, by simp, ?_⟩
    refine forall₂_imp_mem (forall₂_zip_map (f := PlayerResolution.result)
      (g := PlayerResolution.config) M2) ?_
    rintro p hp b ⟨r, ⟨st, hget3', hcfg, hres, _⟩, hb⟩
    obtain ⟨tr, htrm, hn1, st₀, tOut, sIn, hget2, hturn, hget3, hes⟩ :=
      forall₂_mem_left M1 hp
    have hst : st = tOut.state :=
      Option.some.inj (hget3'.symm.trans hget3)
    obtain ⟨st₂, hst₂, hbet₂, _⟩ := states2_bet shuffle g h1 h2 hnodupA hp
    have hst₀ : st₀ = st₂ := Option.some.inj (hget2.symm.trans hst₂)
    have hbetTurn := (playerTurn_bet shuffle fuel (g.round_number + 1)
      upcard' p st₀ sIn tOut hturn).2
    have hbet0 : st₀.bet = p.bet_amount := by rw [hst₀, hbet₂]
    refine ⟨st.hand, st.bet, ?_, ?_, ?_, ?_, ?_, ?_, ?_, ?_, ?_⟩
    · rw [hst]
      rcases hbetTurn with hbt | ⟨hbt, _⟩
      · exact Or.inl (hbt.trans hbet0)
      · rw [hbt, hbet0]
        exact Or.inr (mul_comm p.bet_amount 2)
    · rw [hb, hres]
    · rw [hb, hres]
    · rw [hb, hres]
    · rw [hb, hres]
    · rw [hb, hres]
      exact resolveOutcome_spec st.hand dh3 st.bet
    · rw [hb, hcfg, hres]
      rfl
    · rw [hb, hcfg]
      rfl
    · have M2' := forall₂_exists_map (f := PlayerResolution.trace) M2
      have combined := mergeTraces_forall₂ M1 M2'
      obtain ⟨trM, htrM, n1', es1', n2', es2', hR1', hR2', hpair'⟩ :=
        forall₂_mem_left combined hp
      obtain ⟨r', ⟨st', hget3'', _, _, hrtrace'⟩, htr2'⟩ := hR2'
      have hst' : st' = st :=
        Option.some.inj (hget3''.symm.trans hget3')
      obtain ⟨hn2', hes2'⟩ : n2' = p.name ∧
          es2' = [.roundEnd ⟨g.round_number + 1, st'.hand, upcard', [],
            shoe4.cards_remaining,
            (p.adjust_bankroll
              (resolveOutcome st'.hand dh3 st'.bet).2).bankroll, st'.bet⟩
            (resolveOutcome st'.hand dh3 st'.bet).1
            (resolveOutcome st'.hand dh3 st'.bet).2] := by
        rw [hrtrace'] at htr2'
        cases htr2'
        exact ⟨rfl, rfl⟩
      have hn1'' : n1' = p.name := hR1'.1
      refine ⟨es1' ++ es2', ?_, ?_⟩
      · rw [hpair'] at htrM
        rw [← hn1'']
        exact htrM
      · refine ⟨⟨g.round_number + 1, st'.hand, upcard', [],
          shoe4.cards_remaining,
          (p.adjust_bankroll
            (resolveOutcome st'.hand dh3 st'.bet).2).bankroll, st'.bet⟩,
          ?_, ?_⟩
        · rw [List.mem_append, hes2']
          refine Or.inr ?_
          rw [hb, hres, hst']
          exact List.mem_singleton.2 rfl
        · rw [hb, hres, hst']
          rfl

/-- **C10.** If every player starts the round with non-negative bankroll
and positive bet, every player's bankroll is still non-negative after
`play_round`: participation requires bankroll ≥ bet, doubling requires
bankroll ≥ 2×bet, and no payout is below minus the final bet. -/
theorem bankroll_nonneg (shuffle : List Card → List Card) (fuel : ℕ)
    (g : BlackjackGame) (out : RoundOutput)
    (hpos : ∀ p ∈ g.players, 0 ≤ p.bankroll ∧ 0 < p.bet_amount)
    (hnodup : (g.players.map PlayerConfig.name).Nodup)
    (hok : play_round shuffle fuel g = .ok out) :
    ∀ q ∈ out.game.players, 0 ≤ q.bankroll := by
  rcases play_round_ok_elim shuffle fuel g out hok with ⟨_, hout⟩ |
    ⟨states1, dh1, shoe1, states2, dh2, shoe2, upcard', states3, shoe3,
      turnTraces, dh3, shoe4, rs, h1, h2, _, h3, _, h5, hout⟩
  · subst hout
    intro q hq
    exact (hpos q hq).1
  · subst hout
    intro q hq
    have hnodupA : ((g.players.filter PlayerConfig.can_place_bet).map
        PlayerConfig.name).Nodup :=
      hnodup.sublist ((List.filter_sublist g.players).map PlayerConfig.name)
    have M1 := playerTurnsPhase_spec shuffle fuel (g.round_number + 1)
      upcard' _ _ _ _ _ _ h3 hnodupA
    have M2 := resolvePhase_spec (g.round_number + 1) upcard' dh3 shoe4 _ _ _
      h5
    refine mergePlayers_forall (fun c => 0 ≤ c.bankroll) g.players
      (rs.map PlayerResolution.config) ?_ ?_ q hq
    · refine forall₂_imp_mem
        (forall₂_exists_map (f := PlayerResolution.config) M2) ?_
      rintro p hp c ⟨r, ⟨st, hget3', hcfg, _, _⟩, hc⟩
      obtain ⟨tr, htrm, hn1, st₀, tOut, sIn, hget2, hturn, hget3, hes⟩ :=
        forall₂_mem_left M1 hp
      have hst : st = tOut.state :=
        Option.some.inj (hget3'.symm.trans hget3)
      obtain ⟨st₂, hst₂, hbet₂, _⟩ := states2_bet shuffle g h1 h2 hnodupA hp
      have hst₀ : st₀ = st₂ := Option.some.inj (hget2.symm.trans hst₂)
      have hbetTurn := (playerTurn_bet shuffle fuel (g.round_number + 1)
        upcard' p st₀ sIn tOut hturn).2
      have hbet0 : st₀.bet = p.bet_amount := by rw [hst₀, hbet₂]
      have hmemp : p ∈ g.players := (List.mem_filter.1 hp).1
      have hbet_pos : 0 < p.bet_amount := (hpos p hmemp).2
      have hbr : p.bet_amount ≤ p.bankroll := by
        have hcan := (List.mem_filter.1 hp).2
        simp only [PlayerConfig.can_place_bet, decide_eq_true_eq, ge_iff_le]
          at hcan
        exact hcan
      have hbet_cases : st.bet = p.bet_amount ∨
          (st.bet = p.bet_amount * 2 ∧ p.bankroll ≥ p.bet_amount * 2) := by
        rw [hst]
        rcases hbetTurn with hbt | ⟨hbt, hbk⟩
        · exact Or.inl (hbt.trans hbet0)
        · rw [hbet0] at hbt hbk
          exact Or.inr ⟨hbt, hbk⟩
      have hbet_nonneg : 0 ≤ st.bet := by
        rcases hbet_cases with hbt | ⟨hbt, _⟩ <;> rw [hbt] <;> linarith
      have hpay := resolveOutcome_payout_ge st.hand dh3 hbet_nonneg
      rw [hc, hcfg]
      show 0 ≤ (p.adjust_bankroll (resolveOutcome st.hand dh3 st.bet).2).bankroll
      rw [PlayerConfig.adjust_bankroll]
      rcases hbet_cases with hbt | ⟨hbt, hbk⟩
      · simp only
        linarith [hpay, hbt, hbr]
      · simp only
        linarith [hpay, hbt, hbk]
    · intro p' hp' _
      exact (hpos p' hp').1

/-- Witness for C2, at the concrete round where P (bankroll 100, bet 10)
is dealt a natural blackjack against a dealer 18 and is paid 1.5×bet. -/
theorem round_resolution_spec_witness :
    ∃ (activeResults : List GameResult) (upd : List PlayerConfig)
      (dealer_hand : Hand),
      [(⟨"P", "blackjack", 10 * (3 / 2), 21, 18, true⟩ : GameResult)] =
        ([(⟨"P", SimpleStrategy, 100, 10⟩ : PlayerConfig)].filter
          fun p => ¬ p.can_place_bet).map skipResult ++ activeResults ∧
      [(⟨"P", SimpleStrategy, 100 + 10 * (3 / 2), 10⟩ : PlayerConfig)] =
        mergePlayers [⟨"P", SimpleStrategy, 100, 10⟩] upd ∧
      activeResults.length = upd.length ∧
      List.Forall₂ (fun (p : PlayerConfig) (ru : GameResult × PlayerConfig) =>
        ∃ (hand : Hand) (bet : ℚ),
          (bet = p.bet_amount ∨ bet = 2 * p.bet_amount) ∧
          ru.1.player_name = p.name ∧
          ru.1.player_total = hand.best_value ∧
          ru.1.dealer_total = dealer_hand.best_value ∧
          ru.1.is_blackjack = hand.is_blackjack ∧
          OutcomeSpec hand dealer_hand bet ru.1.outcome ru.1.payout ∧
          ru.2.bankroll = p.bankroll + ru.1.payout ∧
          ru.2.name = p.name ∧
          (∃ es, (p.name, es) ∈
            [("P", [StrategyEvent.roundStart ⟨1, ⟨[⟨"A", "♠"⟩, ⟨"K", "♥"⟩]⟩,
                ⟨"9", "♦"⟩, ["hit", "stand"], 0, 100, 10⟩,
              StrategyEvent.roundEnd ⟨1, ⟨[⟨"A", "♠"⟩, ⟨"K", "♥"⟩]⟩,
                ⟨"9", "♦"⟩, [], 0, 100 + 10 * (3 / 2), 10⟩ "blackjack"
                (10 * (3 / 2))])] ∧
            ∃ snap, StrategyEvent.roundEnd snap ru.1.outcome ru.1.payout ∈ es ∧
              snap.player_bankroll = p.bankroll + ru.1.payout))
        ([(⟨"P", SimpleStrategy, 100, 10⟩ : PlayerConfig)].filter
          PlayerConfig.can_place_bet)
        (activeResults.zip upd) :=
  round_resolution_spec id 8
    ⟨[⟨"P", SimpleStrategy, 100, 10⟩], false,
      ⟨1, [⟨"9", "♣"⟩, ⟨"K", "♥"⟩, ⟨"9", "♦"⟩, ⟨"A", "♠"⟩]⟩, 0⟩
    ⟨⟨[⟨"P", SimpleStrategy, 100 + 10 * (3 / 2), 10⟩], false, ⟨1, []⟩, 1⟩,
      [⟨"P", "blackjack", 10 * (3 / 2), 21, 18, true⟩],
      [("P", [.roundStart ⟨1, ⟨[⟨"A", "♠"⟩, ⟨"K", "♥"⟩]⟩, ⟨"9", "♦"⟩,
          ["hit", "stand"], 0, 100, 10⟩,
        .roundEnd ⟨1, ⟨[⟨"A", "♠"⟩, ⟨"K", "♥"⟩]⟩, ⟨"9", "♦"⟩, [], 0,
          100 + 10 * (3 / 2), 10⟩ "blackjack" (10 * (3 / 2))])]⟩
    (by decide) rfl

/-- Witness for C10: after the concrete blackjack round, the player's
bankroll (100 + 15) is non-negative. -/
theorem bankroll_nonneg_witness :
    0 ≤ (PlayerConfig.mk "P" SimpleStrategy (100 + 10 * (3 / 2)) 10).bankroll :=
  bankroll_nonneg id 8
    ⟨[⟨"P", SimpleStrategy, 100, 10⟩], false,
      ⟨1, [⟨"9", "♣"⟩, ⟨"K", "♥"⟩, ⟨"9", "♦"⟩, ⟨"A", "♠"⟩]⟩, 0⟩
    ⟨⟨[⟨"P", SimpleStrategy, 100 + 10 * (3 / 2), 10⟩], false, ⟨1, []⟩, 1⟩,
      [⟨"P", "blackjack", 10 * (3 / 2), 21, 18, true⟩],
      [("P", [.roundStart ⟨1, ⟨[⟨"A", "♠"⟩, ⟨"K", "♥"⟩]⟩, ⟨"9", "♦"⟩,
          ["hit", "stand"], 0, 100, 10⟩,
        .roundEnd ⟨1, ⟨[⟨"A", "♠"⟩, ⟨"K", "♥"⟩]⟩, ⟨"9", "♦"⟩, [], 0,
          100 + 10 * (3 / 2), 10⟩ "blackjack" (10 * (3 / 2))])]⟩
    (by
      intro p hp
      rw [List.mem_singleton] at hp
      subst hp
      exact ⟨by norm_num, by norm_num⟩)
    (by decide) rfl
    (PlayerConfig.mk "P" SimpleStrategy (100 + 10 * (3 / 2)) 10)
    (List.mem_singleton.2 rfl)

end Blackjack
